import Mathlib

/-!
Verification of the storadapt storage-adapter library.

The development shallowly embeds the library's path-traversal engine
(`src/util.ts`: `parsePath`, `isArrayIndex`, `traversePath`, `serialize`,
`deserialize`, `isSuperJsonFormat`) and the `Storadapt` facade
(`storage.ts`: `get`, `set`, `remove`, `has`, `clear`, `key`, `length`,
`_parseDeepPath`, `_getSimple`, `_getDeep`, `_setDeep`, `_serialize`,
`_saveToStorage`).

JavaScript values are modelled by the inductive type `Value`:
`vUndefined` is JavaScript's `undefined` (the "empty marker" left in array
holes), `vNull` is `null`, `vMap` models a plain object as an
insertion-ordered association list (matching JS object key order), and
`vList` models an array.  Numbers are modelled as integers (the library's
path logic only manipulates integer indices; floating point is out of
scope).  In-place mutation through aliased references in the source is
modelled by functional tree rebuilding: each traversal returns the
(possibly mutated) tree together with its outcome.
-/

set_option maxRecDepth 16384

/-- Model of a JavaScript value tree (the shape stored under one key). -/
inductive Value where
  | vUndefined : Value
  | vNull : Value
  | vBool : Bool → Value
  | vNum : Int → Value
  | vStr : String → Value
  | vList : List Value → Value
  | vMap : List (String × Value) → Value
  deriving Repr

/-- JavaScript `value == null`, true exactly for `null` and `undefined`. -/
def isNullish : Value → Bool
  | .vUndefined => true
  | .vNull => true
  | _ => false

/-- Model of `isString` from util.ts. -/
def isString : Value → Bool
  | .vStr _ => true
  | _ => false

/-- Model of `isObject` from util.ts (plain object: not array, not null). -/
def isObject : Value → Bool
  | .vMap _ => true
  | _ => false

/-- JavaScript `Array.isArray`. -/
def isArray : Value → Bool
  | .vList _ => true
  | _ => false

/-- Model of `isArrayIndex` from util.ts: the regex test `/^\d+$/.test(str)`. -/
def isArrayIndex (s : String) : Bool :=
  !s.data.isEmpty && s.data.all Char.isDigit

/-- Numeric value of a list of decimal digit characters. -/
def digitsVal (cs : List Char) : Nat :=
  cs.foldl (fun a c => a * 10 + (c.toNat - 48)) 0

/-- Model of `Number.parseInt(segment, 10)` on the segment strings the code
feeds it: an optional leading minus sign followed by decimal digits.  (The
code only calls it under an `isArrayIndex` guard, so the all-digit case is
the one that is reachable; the signed case exists to model the guard of
the `NegativeIndex` error branch.) -/
def parseIntJS (s : String) : Int :=
  match s.data with
  | [] => 0
  | c :: rest =>
    if c = '-' then -(Int.ofNat (digitsVal rest)) else Int.ofNat (digitsVal (c :: rest))

/-- Splitting a character list on `.` (the behaviour of
`String.prototype.split('.')`, which yields one piece per gap, keeping
empty pieces). -/
def splitDotAux (acc : List Char) : List Char → List (List Char)
  | [] => [acc.reverse]
  | c :: r => if c = '.' then acc.reverse :: splitDotAux [] r else splitDotAux (c :: acc) r

/-- Model of `parsePath` from util.ts: `path.split('.').filter(Boolean)`
(empty strings are the falsy pieces the filter drops). -/
def parsePath (path : String) : List String :=
  ((splitDotAux [] path.data).map String.mk).filter (fun t => t ≠ "")

/-- JavaScript `segment in obj` for a plain object. -/
def mapHas (m : List (String × Value)) (k : String) : Bool :=
  m.any (fun p => p.1 = k)

/-- JavaScript `obj[segment]` for a plain object (`undefined` when absent). -/
def mapGet (m : List (String × Value)) (k : String) : Value :=
  match m.find? (fun p => p.1 = k) with
  | some p => p.2
  | none => .vUndefined

/-- JavaScript `obj[segment] = v`: replace in place, or append preserving
insertion order. -/
def mapSet (m : List (String × Value)) (k : String) (v : Value) : List (String × Value) :=
  match m with
  | [] => [(k, v)]
  | (k', v') :: rest => if k' = k then (k, v) :: rest else (k', v') :: mapSet rest k v

/-- JavaScript `delete obj[segment]`. -/
def mapDel (m : List (String × Value)) (k : String) : List (String × Value) :=
  m.filter (fun p => p.1 ≠ k)

/-- JavaScript `arr[i]` (`undefined` out of bounds). -/
def listGet (xs : List Value) (i : Nat) : Value :=
  xs.getD i .vUndefined

/-- The `while (current.length <= index) current.push(undefined)` loop. -/
def listExtend (xs : List Value) (i : Nat) : List Value :=
  xs ++ List.replicate (i + 1 - xs.length) .vUndefined

/-- Error kinds raised by `traversePath` and `_setDeep` (the source
distinguishes them only by message text; the dotted-prefix payloads of the
messages are not modelled). -/
inductive TravErr where
  | notAnArray : TravErr
  | negativeIndex : TravErr
  | indexOutOfBounds : TravErr
  | pathNotFound : TravErr
  | notAnObject : TravErr
  | propertyMissing : TravErr
  | nullInPath : TravErr
  deriving Repr, DecidableEq

/-- Outcome of a traversal: `.ok v` models a normal return of `v`
(including the bare `return` — returning `undefined` — taken when
`shouldThrowError` suppresses an error), `.error e` models a thrown error. -/
abbrev TravOut := Except TravErr Value

/-- The source's error funnel: `if (shouldThrowError && !shouldThrowError(error)) return;
throw error`. -/
def mkOut (ste : Option (TravErr → Bool)) (e : TravErr) : TravOut :=
  match ste with
  | some f => if f e then .error e else .ok .vUndefined
  | none => .error e

/-- Classification of the lookahead segment: `nextSegment` is the next
element of the walked range if any, otherwise the stopped-before last
segment (`after`), otherwise `undefined` (classified as not an index). -/
def isNextArr (rest : List String) (after : Option String) : Bool :=
  match rest with
  | r :: _ => isArrayIndex r
  | [] =>
    match after with
    | some a => isArrayIndex a
    | none => false

/-- The freshly created container: `isNextArray ? [] : {}`. -/
def seedBy (b : Bool) : Value := if b then .vList [] else .vMap []

/-- Core loop of `traversePath` from util.ts, one recursive step per loop
iteration.  `toGo` is the range of segments the loop walks (`endIndex`
many), `after` the segment beyond it (the final segment when
`stopBeforeLast` is set), used only for lookahead.  `K` is applied to the
node reached when the walk completes; in-place mutation through the alias
the source returns is modelled by rebuilding the tree around `K`'s result.
Every call returns the rebuilt tree (mutations made before a thrown or
suppressed error persist, as they do in the source) plus the outcome. -/
def travK (cp : Bool) (ste : Option (TravErr → Bool)) (K : Value → Value × TravOut) :
    Value → List String → Option String → Value × TravOut
  | cur, [], _ => K cur
  | cur, seg :: rest, after =>
    if isArrayIndex seg then
      match cur with
      | .vList arr =>
        let index := parseIntJS seg
        if index < 0 then (.vList arr, mkOut ste .negativeIndex)
        else
          let i := index.toNat
          if arr.length ≤ i ∧ ¬cp then (.vList arr, mkOut ste .indexOutOfBounds)
          else
            let arr1 := if arr.length ≤ i then listExtend arr i else arr
            let slot := listGet arr1 i
            if isNullish slot ∧ ¬cp then (.vList arr1, mkOut ste .pathNotFound)
            else
              let child := if isNullish slot then seedBy (isNextArr rest after) else slot
              if isNullish child ∧ rest ≠ [] then
                (.vList (arr1.set i child), mkOut ste .nullInPath)
              else
                let res := travK cp ste K child rest after
                (.vList (arr1.set i res.1), res.2)
      | other => (other, mkOut ste .notAnArray)
    else
      match cur with
      | .vMap m =>
        if ¬mapHas m seg ∧ ¬cp then (.vMap m, mkOut ste .propertyMissing)
        else
          let m1 := if ¬mapHas m seg then mapSet m seg (seedBy (isNextArr rest after)) else m
          let child := mapGet m1 seg
          if isNullish child ∧ rest ≠ [] then
            (.vMap m1, mkOut ste .nullInPath)
          else
            let res := travK cp ste K child rest after
            (.vMap (mapSet m1 seg res.1), res.2)
      | other => (other, mkOut ste .notAnObject)

/-- Options of `traversePath` (types.ts `TraversePathOptions`; absent
fields get the source's destructuring defaults). -/
structure TraverseOptions where
  stopBeforeLast : Bool := false
  createPath : Bool := false
  shouldThrowError : Option (TravErr → Bool) := none

/-- Model of `traversePath` from util.ts.  Returns the tree after any
`createPath` mutations together with the traversal outcome (the source
mutates `obj` in place and returns the resolved node). -/
def traversePath (obj : Value) (path : List String) (o : TraverseOptions) : Value × TravOut :=
  if o.stopBeforeLast then
    travK o.createPath o.shouldThrowError (fun cur => (cur, .ok cur)) obj path.dropLast path.getLast?
  else
    travK o.createPath o.shouldThrowError (fun cur => (cur, .ok cur)) obj path none

/-- Options of `_setDeep` (types.ts `SetDeepOptions`; `none` models an
absent field, defaulted by the destructuring in `_setDeep`). -/
structure SetDeepOptions where
  remove : Option Bool := none
  createPath : Option Bool := none

/-- The `setOrRemove` helper of `_setDeep` on an array slot:
`delete target[i]` leaves an `undefined` hole, assignment stores `value`. -/
def setOrRemoveList (rm : Bool) (value : Value) (arr : List Value) (i : Nat) : List Value :=
  if rm then arr.set i .vUndefined else arr.set i value

/-- Handling of the last path segment in `_setDeep` (storage.ts), applied
to the parent container the stop-before-last traversal reached. -/
def setDeepFin (rm cp : Bool) (value : Value) (lastSegment : String) (parent : Value) :
    Value × TravOut :=
  if isArrayIndex lastSegment then
    match parent with
    | .vList arr =>
      let lastIndex := parseIntJS lastSegment
      if lastIndex < 0 then (.vList arr, .error .negativeIndex)
      else
        let i := lastIndex.toNat
        if arr.length ≤ i then
          if ¬cp then (.vList arr, .error .indexOutOfBounds)
          else (.vList (setOrRemoveList rm value (listExtend arr i) i), .ok .vUndefined)
        else (.vList (setOrRemoveList rm value arr i), .ok .vUndefined)
    | other => (other, .error .notAnArray)
  else
    match parent with
    | .vMap m =>
      (.vMap (if rm then mapDel m lastSegment else mapSet m lastSegment value), .ok .vUndefined)
    | other => (other, .error .notAnObject)

/-- JavaScript `path[path.length - 1]` coerced to a property name: on an
empty path the source indexes with `undefined`, which property access
coerces to the string "undefined". -/
def lastSegOf (path : List String) : String :=
  (path.getLast?).getD "undefined"

/-- Model of `Storadapt._setDeep` (storage.ts): traverse to the parent
with `stopBeforeLast` and no `shouldThrowError`, then set or remove at the
final segment.  The source mutates the parent alias in place; here the
final-segment step is the traversal continuation, so the returned tree is
the mutated root.  The outcome is `.error e` exactly when the source
throws. -/
def Storadapt.setDeep (obj : Value) (path : List String) (value : Value)
    (o : SetDeepOptions) : Value × TravOut :=
  let rm := o.remove.getD false
  let cp := o.createPath.getD false
  travK cp none (setDeepFin rm cp value (lastSegOf path)) obj path.dropLast path.getLast?

/-- Model of `Storadapt._getDeep` (storage.ts): traverse with error
suppression exactly when a default value was supplied; a nullish result
with a default present yields the default; a thrown error with a default
present is caught and yields the default. -/
def Storadapt.getDeep (obj : Value) (path : List String) (defaultValue : Option Value) :
    Except TravErr Value :=
  let hasDefault := defaultValue.isSome
  let res := traversePath obj path { shouldThrowError := some (fun _ => !hasDefault) }
  match res.2 with
  | .ok result =>
    if isNullish result ∧ hasDefault then .ok (defaultValue.getD .vNull) else .ok result
  | .error e =>
    if hasDefault then .ok (defaultValue.getD .vNull) else .error e

/-- JSON whitespace. -/
def isWsChar (c : Char) : Bool :=
  c = ' ' || c = '\t' || c = '\n' || c = '\r'

/-- Skip leading JSON whitespace. -/
def skipWs : List Char → List Char
  | [] => []
  | c :: rest => if isWsChar c then skipWs rest else c :: rest

/-- Single-character JSON string escapes. -/
def escChar (c : Char) : Option Char :=
  if c = '"' then some '"'
  else if c = '\\' then some '\\'
  else if c = '/' then some '/'
  else if c = 'b' then some '\x08'
  else if c = 'f' then some '\x0c'
  else if c = 'n' then some '\n'
  else if c = 'r' then some '\r'
  else if c = 't' then some '\t'
  else none

/-- Hexadecimal digit value. -/
def hexDigit (c : Char) : Option Nat :=
  if '0' ≤ c ∧ c ≤ '9' then some (c.toNat - 48)
  else if 'a' ≤ c ∧ c ≤ 'f' then some (c.toNat - 87)
  else if 'A' ≤ c ∧ c ≤ 'F' then some (c.toNat - 55)
  else none

/-- Body of a JSON string literal (the opening quote already consumed),
with fuel bounded by the input length. -/
def pStringAux : Nat → List Char → Option (List Char × List Char)
  | 0, _ => none
  | _, [] => none
  | f + 1, c :: rest =>
    if c = '"' then some ([], rest)
    else if c = '\\' then
      match rest with
      | 'u' :: h1 :: h2 :: h3 :: h4 :: r2 => do
        let n1 ← hexDigit h1
        let n2 ← hexDigit h2
        let n3 ← hexDigit h3
        let n4 ← hexDigit h4
        let (s, r3) ← pStringAux f r2
        some (Char.ofNat (((n1 * 16 + n2) * 16 + n3) * 16 + n4) :: s, r3)
      | e :: r2 => do
        let ec ← escChar e
        let (s, r3) ← pStringAux f r2
        some (ec :: s, r3)
      | [] => none
    else do
      let (s, r2) ← pStringAux f rest
      some (c :: s, r2)

/-- Parse a JSON string literal body. -/
def pString (cs : List Char) : Option (String × List Char) :=
  (pStringAux (cs.length + 1) cs).map (fun p => (String.mk p.1, p.2))

/-- Longest prefix of decimal digits. -/
def takeDigits (cs : List Char) : List Char × List Char :=
  match cs with
  | [] => ([], [])
  | c :: rest =>
    if c.isDigit then
      let (ds, r) := takeDigits rest
      (c :: ds, r)
    else ([], cs)

/-- JSON number (integer grammar; the library's value domain is modelled
with integer numerics, so fraction/exponent forms are outside the model). -/
def pNumber (cs : List Char) : Option (Int × List Char) :=
  match cs with
  | '-' :: rest =>
    let (ds, r) := takeDigits rest
    if ds.isEmpty then none else some (-(Int.ofNat (digitsVal ds)), r)
  | _ =>
    let (ds, r) := takeDigits cs
    if ds.isEmpty then none else some (Int.ofNat (digitsVal ds), r)

mutual

/-- Recursive-descent JSON value parser (model of `JSON.parse`), with fuel
decremented at each nesting step. -/
def pValue : Nat → List Char → Option (Value × List Char)
  | 0, _ => none
  | f + 1, cs0 =>
    match skipWs cs0 with
    | '\x7b' :: rest =>
      match skipWs rest with
      | '\x7d' :: r2 => some (.vMap [], r2)
      | rest1 => pMembers f rest1 []
    | '[' :: rest =>
      match skipWs rest with
      | ']' :: r2 => some (.vList [], r2)
      | rest1 => pElems f rest1 []
    | '"' :: rest => (pString rest).map (fun p => (.vStr p.1, p.2))
    | 't' :: 'r' :: 'u' :: 'e' :: rest => some (.vBool true, rest)
    | 'f' :: 'a' :: 'l' :: 's' :: 'e' :: rest => some (.vBool false, rest)
    | 'n' :: 'u' :: 'l' :: 'l' :: rest => some (.vNull, rest)
    | cs => (pNumber cs).map (fun p => (.vNum p.1, p.2))

/-- JSON object members after the opening brace (non-empty object). -/
def pMembers : Nat → List Char → List (String × Value) →
    Option (Value × List Char)
  | 0, _, _ => none
  | f + 1, cs, acc =>
    match cs with
    | '"' :: rest => do
      let (k, r1) ← pString rest
      match skipWs r1 with
      | ':' :: r3 => do
        let (v, r4) ← pValue f r3
        match skipWs r4 with
        | ',' :: r6 => pMembers f (skipWs r6) (acc ++ [(k, v)])
        | '\x7d' :: r6 => some (.vMap (acc ++ [(k, v)]), r6)
        | _ => none
      | _ => none
    | _ => none

/-- JSON array elements after the opening bracket (non-empty array). -/
def pElems : Nat → List Char → List Value → Option (Value × List Char)
  | 0, _, _ => none
  | f + 1, cs, acc => do
    let (v, r1) ← pValue f cs
    match skipWs r1 with
    | ',' :: r2 => pElems f (skipWs r2) (acc ++ [v])
    | ']' :: r2 => some (.vList (acc ++ [v]), r2)
    | _ => none

end

/-- Model of `JSON.parse`: parse one value, reject trailing garbage. -/
def jsonParse (s : String) : Option Value :=
  match pValue (s.length + 1) s.data with
  | some (v, rest) => if skipWs rest = [] then some v else none
  | none => none

/-- Binary digits of a natural number, least significant bit first (empty
for zero), with explicit fuel so the definition reduces inside the
kernel.  Used by the lossless payload encoding of the superjson codec
model. -/
def encNatBinF : Nat → Nat → List Char
  | 0, _ => []
  | f + 1, n =>
    if n = 0 then []
    else (if n % 2 = 1 then '1' else '0') :: encNatBinF f (n / 2)

/-- Binary digits of a natural number (the fuel `n` always suffices). -/
def encNatBin (n : Nat) : List Char :=
  encNatBinF n n

/-- A terminated natural-number payload. -/
def encNat (n : Nat) : List Char :=
  encNatBin n ++ ['.']

/-- A comma-terminated sequence of character codes. -/
def encStrChars : List Char → List Char
  | [] => [',']
  | c :: rest => encNat c.toNat ++ encStrChars rest

mutual

/-- Lossless payload encoding of a `Value` (alphabet: tag letters, binary
digits, and the separators `.` and `,` — no quote, no backslash). -/
def encV : Value → List Char
  | .vUndefined => ['u']
  | .vNull => ['n']
  | .vBool true => ['t']
  | .vBool false => ['f']
  | .vNum i => (if i < 0 then 'g' else 'i') :: encNat i.natAbs
  | .vStr s => 's' :: encStrChars s.data
  | .vList xs => 'l' :: (encL xs ++ ['.'])
  | .vMap m => 'm' :: (encM m ++ ['.'])

/-- Encoding of list elements (terminator added by `encV`). -/
def encL : List Value → List Char
  | [] => []
  | x :: xs => encV x ++ encL xs

/-- Encoding of map entries (terminator added by `encV`). -/
def encM : List (String × Value) → List Char
  | [] => []
  | (k, x) :: m => 'k' :: (encStrChars k.data ++ encV x ++ encM m)

end

/-- Decode a terminated binary natural. -/
def decNatBin : List Char → Option (Nat × List Char)
  | [] => none
  | '.' :: r => some (0, r)
  | '1' :: r => (decNatBin r).map (fun p => (2 * p.1 + 1, p.2))
  | '0' :: r => (decNatBin r).map (fun p => (2 * p.1, p.2))
  | _ => none

mutual

/-- Decode one encoded `Value` (fuel-bounded). -/
def decV : Nat → List Char → Option (Value × List Char)
  | 0, _ => none
  | f + 1, cs =>
    match cs with
    | 'u' :: r => some (.vUndefined, r)
    | 'n' :: r => some (.vNull, r)
    | 't' :: r => some (.vBool true, r)
    | 'f' :: r => some (.vBool false, r)
    | 'i' :: r => (decNatBin r).map (fun p => (.vNum (Int.ofNat p.1), p.2))
    | 'g' :: r => (decNatBin r).map (fun p => (.vNum (-(Int.ofNat p.1)), p.2))
    | 's' :: r => (decStr f r).map (fun p => (.vStr (String.mk p.1), p.2))
    | 'l' :: r => (decL f r).map (fun p => (.vList p.1, p.2))
    | 'm' :: r => (decM f r).map (fun p => (.vMap p.1, p.2))
    | _ => none

/-- Decode list elements up to the terminator. -/
def decL : Nat → List Char → Option (List Value × List Char)
  | 0, _ => none
  | f + 1, cs =>
    match cs with
    | [] => none
    | c :: r =>
      if c = '.' then some ([], r)
      else do
        let (x, r1) ← decV f (c :: r)
        let (xs, r2) ← decL f r1
        some (x :: xs, r2)

/-- Decode map entries up to the terminator. -/
def decM : Nat → List Char → Option (List (String × Value) × List Char)
  | 0, _ => none
  | f + 1, cs =>
    match cs with
    | [] => none
    | c :: r =>
      if c = '.' then some ([], r)
      else if c = 'k' then do
        let (kc, r1) ← decStr f r
        let (x, r2) ← decV f r1
        let (m, r3) ← decM f r2
        some ((String.mk kc, x) :: m, r3)
      else none

/-- Decode an encoded character-code sequence up to the terminator. -/
def decStr : Nat → List Char → Option (List Char × List Char)
  | 0, _ => none
  | f + 1, cs =>
    match cs with
    | [] => none
    | c :: r =>
      if c = ',' then some ([], r)
      else do
        let (n, r1) ← decNatBin (c :: r)
        let (rest, r2) ← decStr f r1
        some (Char.ofNat n :: rest, r2)

end

mutual

/-- Fuel needed by `decV` on the encoding of a value. -/
def cntV : Value → Nat
  | .vStr s => 2 + s.data.length
  | .vList xs => 1 + cntL xs
  | .vMap m => 1 + cntM m
  | _ => 1

/-- Fuel needed by `decL` on encoded elements plus their terminator. -/
def cntL : List Value → Nat
  | [] => 1
  | x :: xs => 1 + max (cntV x) (cntL xs)

/-- Fuel needed by `decM` on encoded entries plus their terminator. -/
def cntM : List (String × Value) → Nat
  | [] => 1
  | (k, x) :: m => 1 + max (k.data.length + 1) (max (cntV x) (cntM m))

end

/-- Fixed character scaffold of the superjson wire format produced by the
codec model: an object with a single `json` field holding the payload
string. -/
def sjPre : List Char := ['\x7b', '"', 'j', 's', 'o', 'n', '"', ':', '"']

/-- Closing scaffold of the superjson wire format. -/
def sjSuf : List Char := ['"', '\x7d']

/-- Modelled from the spec: the superjson codec (an external dependency of
the repository, outside src/) is a black-box lossless encoder
`encode(value) -> string` whose output is a JSON object carrying a
top-level `json` field (the shape `isSuperJsonFormat` detects).  The model
renders the value into the `json` field as a string over a quote-free
alphabet; losslessness (including `undefined` round-tripping, which the
real codec achieves through its `meta` field) is proved below. -/
def superjsonStringify (v : Value) : String :=
  String.mk (sjPre ++ encV v ++ sjSuf)

/-- Decode a string that is an image of `superjsonStringify`. -/
def decodeImage (s : String) : Option Value :=
  match s.data with
  | '\x7b' :: '"' :: 'j' :: 's' :: 'o' :: 'n' :: '"' :: ':' :: '"' :: rest =>
    match decV (rest.length + 1) rest with
    | some (v, ['"', '\x7d']) => some v
    | _ => none
  | _ => none

/-- Modelled from the spec: `superjson.parse`.  On an image of the codec's
own encoder it returns the encoded value; on other JSON input the real
library's deserializer finds no `json` payload and yields `undefined`; on
non-JSON input it throws (every call site guards with a JSON check first,
so the error case is unreachable in the facade). -/
def superjsonParse (s : String) : Except String Value :=
  match decodeImage s with
  | some v => .ok v
  | none =>
    match jsonParse s with
    | some _ => .ok .vUndefined
    | none => .error "superjson parse error"

/-- Modelled from the spec and the revision's unit tests: `isJsonString`
from the earlier util.ts revision (imported by storage.ts but not present
under src/) accepts exactly the strings `JSON.parse` accepts. -/
def isJsonString (s : String) : Bool :=
  (jsonParse s).isSome

/-- Model of `isSuperJsonFormat` from util.ts: `JSON.parse` succeeds and
yields a non-null object with a `json` property (`'json' in parsed` is
false for parsed arrays, which carry no such key). -/
def isSuperJsonFormat (s : String) : Bool :=
  match jsonParse s with
  | some (.vMap m) => mapHas m "json"
  | _ => false

/-- Model of `serialize` from util.ts: strings pass through unchanged,
everything else goes through `superjson.stringify`. -/
def serialize (v : Value) : String :=
  match v with
  | .vStr s => s
  | _ => superjsonStringify v

/-- Model of `deserialize` from util.ts on a non-null input string:
superjson-format strings go through `superjson.parse` (errors fall
through), then `JSON.parse`, and finally the raw string itself. -/
def jsonFallback (s : String) : Value :=
  match jsonParse s with
  | some v => v
  | none => .vStr s

/-- Model of `deserialize` from util.ts (`null` maps to `null`). -/
def deserialize (s? : Option String) : Value :=
  match s? with
  | none => .vNull
  | some s =>
    if isSuperJsonFormat s then
      match superjsonParse s with
      | .ok v => v
      | .error _ => jsonFallback s
    else jsonFallback s

/-- The storage adapter contract (types.ts `StorageAdapter`), over an
explicit backend state `σ`.  Every method may fail (throw), modelled by
`Except`; a failing method leaves the state unchanged. -/
structure StorageAdapter (σ : Type) where
  getItem : σ → String → Except String (Option String)
  setItem : σ → String → String → Except String σ
  removeItem : σ → String → Except String σ
  clear : σ → Except String σ
  length : σ → Except String Nat
  key : σ → Nat → Except String (Option String)

/-- Errors observable inside a facade operation before its `try/catch`:
either an adapter (backend) failure or a thrown traversal error. -/
inductive JsErr where
  | adapter : String → JsErr
  | trav : TravErr → JsErr
  deriving Repr, DecidableEq

/-- Lift an adapter call into the facade's error monad. -/
def liftA {α : Type} : Except String α → Except JsErr α
  | .ok a => .ok a
  | .error e => .error (.adapter e)

/-- Reduction of a successful bind in the `Except` monad. -/
theorem exbind_ok {ε α β : Type} (a : α) (f : α → Except ε β) :
    (Except.ok a >>= f : Except ε β) = f a := rfl

/-- Reduction of a failing bind in the `Except` monad. -/
theorem exbind_error {ε α β : Type} (e : ε) (f : α → Except ε β) :
    (Except.error e >>= f : Except ε β) = Except.error e := rfl

/-- The `Except` monad's `pure` is `ok`. -/
theorem expure {ε α : Type} (a : α) : (pure a : Except ε α) = Except.ok a := rfl

/-- Options of `get` (types.ts `GetOptions`); `none` models an absent or
`undefined` `defaultValue`. -/
structure GetOptions where
  defaultValue : Option Value := none

/-- Options of `set` (types.ts `SetOptions`). -/
structure SetOptions where
  createPath : Option Bool := none

/-- The deep-operation discriminator (types.ts `DeepOperation`). -/
inductive DeepOperation where
  | get : DeepOperation
  | set : DeepOperation
  | remove : DeepOperation
  deriving Repr, DecidableEq

/-- Result of `_parseDeepPath` (types.ts `DeepPathInfo`). -/
structure DeepPathInfo where
  storageKey : String
  pathSegments : List String
  rootValue : Value

/-- JavaScript `key.indexOf('.')`, as an optional character position. -/
def dotIdx? (s : String) : Option Nat :=
  s.data.findIdx? (fun c => c = '.')

/-- JavaScript `pathSegments[0]` coerced to a property name (an empty
segment list indexes with `undefined`, which the regex test coerces to
the string "undefined"). -/
def seg0 (segs : List String) : String :=
  segs.headD "undefined"

/-- Model of `Storadapt._validateFirstSegment`. -/
def validateFirstSegment (value : Value) (firstSegment : String) : Bool :=
  if isArrayIndex firstSegment then isArray value else isObject value

/-- Model of `Storadapt._parseDeepPath` (storage.ts): split the address at
the first dot, load and decode the root, seed a fresh root for `set` on a
missing key, and validate the root's shape against the first segment.
`none` models the `null` returns (missing key for get/remove, shape
mismatch warning). -/
def Storadapt.parseDeepPath {σ : Type} (A : StorageAdapter σ) (s : σ) (key : String)
    (di : Nat) (op : DeepOperation) : Except JsErr (Option DeepPathInfo) := do
  let storageKey := String.mk (key.data.take di)
  let deepPath := String.mk (key.data.drop (di + 1))
  let pathSegments := parsePath deepPath
  let raw ← liftA (A.getItem s storageKey)
  match raw with
  | none =>
    match op with
    | .get => pure none
    | .remove => pure none
    | .set =>
      pure (some { storageKey, pathSegments,
                   rootValue := if isArrayIndex (seg0 pathSegments) then .vList [] else .vMap [] })
  | some rv => do
    let rootValue ←
      if isJsonString rv then
        match superjsonParse rv with
        | .ok v => pure v
        | .error e => Except.error (.adapter e)
      else pure (Value.vStr rv)
    if validateFirstSegment rootValue (seg0 pathSegments) then
      pure (some { storageKey, pathSegments, rootValue })
    else pure none

/-- Model of `Storadapt._saveToStorage`: `superjson.stringify` then
`setItem`. -/
def Storadapt.saveToStorage {σ : Type} (A : StorageAdapter σ) (s : σ) (key : String)
    (value : Value) : Except JsErr σ :=
  liftA (A.setItem s key (superjsonStringify value))

/-- JavaScript `String(value)` on the primitives `_serialize` can reach. -/
def jsToString (v : Value) : String :=
  match v with
  | .vUndefined => "undefined"
  | .vNull => "null"
  | .vBool true => "true"
  | .vBool false => "false"
  | .vNum i => toString i
  | .vStr s => s
  | .vList _ => ""
  | .vMap _ => ""

/-- Model of `Storadapt._serialize`: strings pass through, containers go
through `superjson.stringify`, other primitives through `String(value)`. -/
def Storadapt.serializeSimple (v : Value) : String :=
  if isString v then jsToString v
  else if isObject v || isArray v then superjsonStringify v
  else jsToString v

/-- Model of `Storadapt._getSimple`. -/
def Storadapt.getSimple {σ : Type} (A : StorageAdapter σ) (s : σ) (key : String)
    (opts : GetOptions) : Except JsErr Value := do
  let raw ← liftA (A.getItem s key)
  match raw with
  | none => pure (opts.defaultValue.getD .vNull)
  | some rv =>
    if isJsonString rv then
      match superjsonParse rv with
      | .ok v => pure v
      | .error e => Except.error (.adapter e)
    else pure (Value.vStr rv)

/-- Body of `Storadapt.get` before its `try/catch`. -/
def Storadapt.getBody {σ : Type} (A : StorageAdapter σ) (s : σ) (key : String)
    (opts : GetOptions) : Except JsErr Value := do
  match dotIdx? key with
  | none => Storadapt.getSimple A s key opts
  | some di =>
    let info? ← Storadapt.parseDeepPath A s key di .get
    match info? with
    | none => pure (opts.defaultValue.getD .vNull)
    | some info =>
      match Storadapt.getDeep info.rootValue info.pathSegments opts.defaultValue with
      | .ok v => pure v
      | .error e => Except.error (.trav e)

/-- Model of `Storadapt.get`: the outer `catch` logs and returns
`options?.defaultValue ?? null`. -/
def Storadapt.get {σ : Type} (A : StorageAdapter σ) (s : σ) (key : String)
    (opts : GetOptions) : Value :=
  match Storadapt.getBody A s key opts with
  | .ok v => v
  | .error _ => opts.defaultValue.getD .vNull

/-- Body of `Storadapt.set` before its `try/catch`, returning the new
backend state. -/
def Storadapt.setBody {σ : Type} (A : StorageAdapter σ) (s : σ) (key : String)
    (value : Value) (opts : SetOptions) : Except JsErr σ := do
  match dotIdx? key with
  | none => liftA (A.setItem s key (Storadapt.serializeSimple value))
  | some di =>
    let info? ← Storadapt.parseDeepPath A s key di .set
    match info? with
    | none => pure s
    | some info =>
      let res := Storadapt.setDeep info.rootValue info.pathSegments value
        { createPath := opts.createPath }
      match res.2 with
      | .error e => Except.error (.trav e)
      | .ok _ => Storadapt.saveToStorage A s info.storageKey res.1

/-- Model of `Storadapt.set`: the outer `catch` logs and returns with the
backend untouched (the only state change in the body is the final
`setItem`). -/
def Storadapt.set {σ : Type} (A : StorageAdapter σ) (s : σ) (key : String)
    (value : Value) (opts : SetOptions) : σ :=
  match Storadapt.setBody A s key value opts with
  | .ok s' => s'
  | .error _ => s

/-- Body of `Storadapt.remove` before its `try/catch`. -/
def Storadapt.removeBody {σ : Type} (A : StorageAdapter σ) (s : σ) (key : String) :
    Except JsErr σ := do
  match dotIdx? key with
  | none => liftA (A.removeItem s key)
  | some di =>
    let info? ← Storadapt.parseDeepPath A s key di .remove
    match info? with
    | none => pure s
    | some info =>
      let res := Storadapt.setDeep info.rootValue info.pathSegments .vUndefined
        { remove := some true, createPath := some false }
      match res.2 with
      | .error e => Except.error (.trav e)
      | .ok _ => Storadapt.saveToStorage A s info.storageKey res.1

/-- Model of `Storadapt.remove`. -/
def Storadapt.remove {σ : Type} (A : StorageAdapter σ) (s : σ) (key : String) : σ :=
  match Storadapt.removeBody A s key with
  | .ok s' => s'
  | .error _ => s

/-- Body of `Storadapt.has` before its `try/catch`: without a dot it
checks backend presence, with a dot it delegates to the (already
non-throwing) `get` and tests `value !== null`. -/
def Storadapt.hasBody {σ : Type} (A : StorageAdapter σ) (s : σ) (key : String) :
    Except JsErr Bool := do
  match dotIdx? key with
  | none => do
    let r ← liftA (A.getItem s key)
    pure r.isSome
  | some _ =>
    pure (match Storadapt.get A s key {} with
          | .vNull => false
          | _ => true)

/-- Model of `Storadapt.has`. -/
def Storadapt.has {σ : Type} (A : StorageAdapter σ) (s : σ) (key : String) : Bool :=
  match Storadapt.hasBody A s key with
  | .ok b => b
  | .error _ => false

/-- Model of `Storadapt.clear`. -/
def Storadapt.clear {σ : Type} (A : StorageAdapter σ) (s : σ) : σ :=
  match A.clear s with
  | .ok s' => s'
  | .error _ => s

/-- Model of the `Storadapt.length` getter. -/
def Storadapt.length {σ : Type} (A : StorageAdapter σ) (s : σ) : Nat :=
  match A.length s with
  | .ok n => n
  | .error _ => 0

/-- Model of `Storadapt.key`. -/
def Storadapt.key {σ : Type} (A : StorageAdapter σ) (s : σ) (i : Nat) : Option String :=
  match A.key s i with
  | .ok r => r
  | .error _ => none

/-- A backend state for the in-memory adapter: an association list of
stored strings. -/
abbrev MemStore := List (String × String)

/-- Lookup in the in-memory store. -/
def storeGet (s : MemStore) (k : String) : Option String :=
  match s.find? (fun p => p.1 = k) with
  | some p => some p.2
  | none => none

/-- Assignment in the in-memory store. -/
def storeSet (s : MemStore) (k v : String) : MemStore :=
  match s with
  | [] => [(k, v)]
  | (k', v') :: rest => if k' = k then (k, v) :: rest else (k', v') :: storeSet rest k v

/-- Deletion in the in-memory store. -/
def storeDel (s : MemStore) (k : String) : MemStore :=
  s.filter (fun p => p.1 ≠ k)

/-- Model of `createMemoryAdapter` from the test helpers: a plain
record-backed adapter whose `getItem` returns `store[key] || null`
(so an empty-string value reads back as `null`). -/
def memAdapter : StorageAdapter MemStore where
  getItem s k := .ok (match storeGet s k with
    | some v => if v = "" then none else some v
    | none => none)
  setItem s k v := .ok (storeSet s k v)
  removeItem s k := .ok (storeDel s k)
  clear _ := .ok []
  length s := .ok s.length
  key s i := .ok ((s.map (fun p => p.1)).getD i "" |> fun k => if i < s.length then some k else none)

/-- Every character of a binary numeral is a bit character. -/
theorem encNatBinF_mem : ∀ (f n : Nat), ∀ c ∈ encNatBinF f n, c = '0' ∨ c = '1' := by
  intro f
  induction f with
  | zero => intro n c hc; simp [encNatBinF] at hc
  | succ f ih =>
    intro n c hc
    rw [encNatBinF] at hc
    by_cases h : n = 0
    · simp [h] at hc
    · simp only [h, if_false, List.mem_cons] at hc
      rcases hc with hc | hc
      · subst hc
        by_cases hm : n % 2 = 1 <;> simp [hm]
      · exact ih (n / 2) c hc

/-- Every character of a binary numeral is a bit character. -/
theorem encNatBin_mem (n : Nat) : ∀ c ∈ encNatBin n, c = '0' ∨ c = '1' :=
  encNatBinF_mem n n

/-- The binary-numeral decoder inverts the fuelled encoder. -/
theorem decNatBin_encF : ∀ (f n : Nat), n ≤ f →
    ∀ rest, decNatBin (encNatBinF f n ++ '.' :: rest) = some (n, rest) := by
  intro f
  induction f with
  | zero =>
    intro n hn rest
    have : n = 0 := by omega
    subst this
    simp [encNatBinF, decNatBin]
  | succ f ih =>
    intro n hn rest
    rw [encNatBinF]
    by_cases h : n = 0
    · simp [h, decNatBin]
    · simp only [h, if_false, List.cons_append]
      have hrec := ih (n / 2) (by omega) rest
      by_cases hm : n % 2 = 1
      · have hv : 2 * (n / 2) + 1 = n := by omega
        simp only [hm, if_pos rfl, decNatBin, hrec]
        simp [hv]
      · have hv : 2 * (n / 2) = n := by omega
        simp only [hm, if_false, decNatBin, hrec]
        simp [hv]

/-- The binary-numeral decoder inverts the encoder. -/
theorem decNatBin_enc (n : Nat) : ∀ rest, decNatBin (encNatBin n ++ '.' :: rest) = some (n, rest) :=
  decNatBin_encF n n le_rfl

/-- An empty binary numeral encodes zero. -/
theorem encNatBin_eq_nil (n : Nat) (h : encNatBin n = []) : n = 0 := by
  by_contra hn
  unfold encNatBin at h
  cases n with
  | zero => exact hn rfl
  | succ m =>
    rw [encNatBinF] at h
    simp at h

/-- The character-sequence decoder inverts the encoder. -/
theorem decStr_enc : ∀ (cs : List Char) (f : Nat) (rest : List Char),
    cs.length + 1 ≤ f → decStr f (encStrChars cs ++ rest) = some (cs, rest) := by
  intro cs
  induction cs with
  | nil =>
    intro f rest hf
    obtain ⟨f', rfl⟩ : ∃ f', f = f' + 1 := ⟨f - 1, by omega⟩
    simp [encStrChars, decStr]
  | cons c cs ih =>
    intro f rest hf
    obtain ⟨f', rfl⟩ : ∃ f', f = f' + 1 := ⟨f - 1, by omega⟩
    have hin : encStrChars (c :: cs) ++ rest
        = encNat c.toNat ++ (encStrChars cs ++ rest) := by
      simp [encStrChars]
    have hdec : decNatBin (encNat c.toNat ++ (encStrChars cs ++ rest))
        = some (c.toNat, encStrChars cs ++ rest) := by
      simpa [encNat] using decNatBin_enc c.toNat (encStrChars cs ++ rest)
    have hhead : ∃ y ys, encNat c.toNat ++ (encStrChars cs ++ rest) = y :: ys ∧ y ≠ ',' := by
      cases hb : encNatBin c.toNat with
      | nil => exact ⟨'.', encStrChars cs ++ rest, by simp [encNat, hb], by decide⟩
      | cons b bs =>
        refine ⟨b, bs ++ '.' :: (encStrChars cs ++ rest), by simp [encNat, hb], ?_⟩
        rcases encNatBin_mem c.toNat b (by rw [hb]; exact List.mem_cons_self b bs) with h0 | h0 <;>
          (subst h0; decide)
    obtain ⟨y, ys, hys, hy⟩ := hhead
    rw [hin, hys]
    simp only [decStr, if_neg hy]
    rw [← hys, hdec]
    have hf' : cs.length + 1 ≤ f' := by
      simp only [List.length_cons] at hf
      omega
    simp [ih f' rest hf', Char.ofNat_toNat]

/-- Every payload encoding is non-empty and starts with a tag character
distinct from the terminators. -/
theorem encV_cons (v : Value) : ∃ c t, encV v = c :: t ∧ c ≠ '.' := by
  cases v with
  | vUndefined => exact ⟨'u', [], rfl, by decide⟩
  | vNull => exact ⟨'n', [], rfl, by decide⟩
  | vBool b => cases b with
    | true => exact ⟨'t', [], rfl, by decide⟩
    | false => exact ⟨'f', [], rfl, by decide⟩
  | vNum i =>
    refine ⟨if i < 0 then 'g' else 'i', encNat i.natAbs, rfl, ?_⟩
    split <;> decide
  | vStr s => exact ⟨'s', encStrChars s.data, rfl, by decide⟩
  | vList xs => exact ⟨'l', encL xs ++ ['.'], rfl, by decide⟩
  | vMap m => exact ⟨'m', encM m ++ ['.'], rfl, by decide⟩

set_option maxHeartbeats 1000000 in
mutual

/-- The payload decoder inverts the encoder on values. -/
theorem decV_encV : ∀ (v : Value) (f : Nat) (rest : List Char),
    cntV v ≤ f → decV f (encV v ++ rest) = some (v, rest)
  | .vUndefined, f, rest, h => by
    obtain ⟨f', rfl⟩ : ∃ f', f = f' + 1 := ⟨f - 1, by simp only [cntV] at h; omega⟩
    simp [encV, decV]
  | .vNull, f, rest, h => by
    obtain ⟨f', rfl⟩ : ∃ f', f = f' + 1 := ⟨f - 1, by simp only [cntV] at h; omega⟩
    simp [encV, decV]
  | .vBool true, f, rest, h => by
    obtain ⟨f', rfl⟩ : ∃ f', f = f' + 1 := ⟨f - 1, by simp only [cntV] at h; omega⟩
    simp [encV, decV]
  | .vBool false, f, rest, h => by
    obtain ⟨f', rfl⟩ : ∃ f', f = f' + 1 := ⟨f - 1, by simp only [cntV] at h; omega⟩
    simp [encV, decV]
  | .vNum i, f, rest, h => by
    obtain ⟨f', rfl⟩ : ∃ f', f = f' + 1 := ⟨f - 1, by simp only [cntV] at h; omega⟩
    have hdec : decNatBin (encNat i.natAbs ++ rest) = some (i.natAbs, rest) := by
      simpa [encNat] using decNatBin_enc i.natAbs rest
    by_cases hi : i < 0
    · simp [encV, if_pos hi, decV, hdec]
      rw [abs_of_neg hi]
      omega
    · simp [encV, if_neg hi, decV, hdec]
      omega
  | .vStr s, f, rest, h => by
    obtain ⟨f', rfl⟩ : ∃ f', f = f' + 1 := ⟨f - 1, by simp only [cntV] at h; omega⟩
    have hlen : s.data.length + 1 ≤ f' := by simp only [cntV] at h; omega
    simp [encV, decV, decStr_enc s.data f' rest hlen]
  | .vList xs, f, rest, h => by
    obtain ⟨f', rfl⟩ : ∃ f', f = f' + 1 := ⟨f - 1, by simp only [cntV] at h; omega⟩
    have hl := decL_encL xs f' rest (by simp only [cntV] at h; omega)
    simp only [encV, List.cons_append, List.append_assoc, List.singleton_append]
    simp [decV, hl]
  | .vMap m, f, rest, h => by
    obtain ⟨f', rfl⟩ : ∃ f', f = f' + 1 := ⟨f - 1, by simp only [cntV] at h; omega⟩
    have hm := decM_encM m f' rest (by simp only [cntV] at h; omega)
    simp only [encV, List.cons_append, List.append_assoc, List.singleton_append]
    simp [decV, hm]

/-- The payload decoder inverts the encoder on element lists. -/
theorem decL_encL : ∀ (xs : List Value) (f : Nat) (rest : List Char),
    cntL xs ≤ f → decL f (encL xs ++ '.' :: rest) = some (xs, rest)
  | [], f, rest, h => by
    obtain ⟨f', rfl⟩ : ∃ f', f = f' + 1 := ⟨f - 1, by simp only [cntL] at h; omega⟩
    simp [encL, decL]
  | x :: xs, f, rest, h => by
    obtain ⟨f', rfl⟩ : ∃ f', f = f' + 1 := ⟨f - 1, by simp only [cntL] at h; omega⟩
    have hx : cntV x ≤ f' := by simp only [cntL] at h; omega
    have hxs : cntL xs ≤ f' := by simp only [cntL] at h; omega
    obtain ⟨c, t, hct, hc⟩ := encV_cons x
    have hshape : encL (x :: xs) ++ '.' :: rest = c :: (t ++ (encL xs ++ '.' :: rest)) := by
      simp [encL, hct]
    rw [hshape]
    simp only [decL, if_neg hc]
    have hv : decV f' (c :: (t ++ (encL xs ++ '.' :: rest))) = some (x, encL xs ++ '.' :: rest) := by
      have := decV_encV x f' (encL xs ++ '.' :: rest) hx
      rwa [hct, List.cons_append] at this
    rw [hv]
    simp [decL_encL xs f' rest hxs]

/-- The payload decoder inverts the encoder on entry lists. -/
theorem decM_encM : ∀ (m : List (String × Value)) (f : Nat) (rest : List Char),
    cntM m ≤ f → decM f (encM m ++ '.' :: rest) = some (m, rest)
  | [], f, rest, h => by
    obtain ⟨f', rfl⟩ : ∃ f', f = f' + 1 := ⟨f - 1, by simp only [cntM] at h; omega⟩
    simp [encM, decM]
  | (k, x) :: m, f, rest, h => by
    obtain ⟨f', rfl⟩ : ∃ f', f = f' + 1 := ⟨f - 1, by simp only [cntM] at h; omega⟩
    have hk : k.data.length + 1 ≤ f' := by simp only [cntM] at h; omega
    have hx : cntV x ≤ f' := by simp only [cntM] at h; omega
    have hm : cntM m ≤ f' := by simp only [cntM] at h; omega
    have hshape : encM ((k, x) :: m) ++ '.' :: rest
        = 'k' :: (encStrChars k.data ++ (encV x ++ (encM m ++ '.' :: rest))) := by
      simp [encM]
    rw [hshape]
    simp only [decM, if_neg (by decide : ¬('k' = '.')), if_pos rfl]
    rw [decStr_enc k.data f' (encV x ++ (encM m ++ '.' :: rest)) hk]
    simp [decV_encV x f' (encM m ++ '.' :: rest) hx, decM_encM m f' rest hm]

end

/-- The payload encoding is injective. -/
theorem encV_inj (a b : Value) (h : encV a = encV b) : a = b := by
  have ha := decV_encV a (max (cntV a) (cntV b)) [] (le_max_left _ _)
  have hb := decV_encV b (max (cntV a) (cntV b)) [] (le_max_right _ _)
  rw [h] at ha
  rw [ha] at hb
  simp only [Option.some.injEq, Prod.mk.injEq] at hb
  exact hb.1

instance : DecidableEq Value := fun a b =>
  decidable_of_iff (encV a = encV b) ⟨encV_inj a b, fun h => by rw [h]⟩

/-- Characters of an encoded character sequence: bits, `.` and `,`. -/
theorem encStrChars_mem (cs : List Char) :
    ∀ c ∈ encStrChars cs, c = '0' ∨ c = '1' ∨ c = '.' ∨ c = ',' := by
  induction cs with
  | nil => intro c hc; simp [encStrChars] at hc; simp [hc]
  | cons x xs ih =>
    intro c hc
    simp only [encStrChars, encNat, List.append_assoc, List.mem_append] at hc
    rcases hc with hc | hc
    · rcases encNatBin_mem x.toNat c hc with h0 | h0 <;> simp [h0]
    · simp only [List.mem_append, List.mem_singleton] at hc
      rcases hc with hc | hc
      · simp [hc]
      · exact ih c hc

/-- The encoded character sequence is longer than the character list. -/
theorem encStrChars_len (cs : List Char) : cs.length + 1 ≤ (encStrChars cs).length := by
  induction cs with
  | nil => simp [encStrChars]
  | cons x xs ih =>
    simp only [encStrChars, encNat, List.length_append, List.length_cons]
    omega

/-- Every payload encoding is non-empty. -/
theorem encV_len_pos (v : Value) : 1 ≤ (encV v).length := by
  obtain ⟨c, t, hct, _⟩ := encV_cons v
  simp [hct]

mutual

/-- Decoder fuel is bounded by the encoding length. -/
theorem cntV_le_len : ∀ (v : Value), cntV v ≤ (encV v).length
  | .vUndefined => by simp [cntV, encV]
  | .vNull => by simp [cntV, encV]
  | .vBool true => by simp [cntV, encV]
  | .vBool false => by simp [cntV, encV]
  | .vNum i => by simp [cntV, encV]
  | .vStr s => by
    have := encStrChars_len s.data
    simp only [cntV, encV, List.length_cons]
    omega
  | .vList xs => by
    have := cntL_le_len xs
    simp only [cntV, encV, List.length_cons, List.length_append, List.length_singleton]
    omega
  | .vMap m => by
    have := cntM_le_len m
    simp only [cntV, encV, List.length_cons, List.length_append, List.length_singleton]
    omega

/-- Decoder fuel for element lists is bounded by the encoding length plus
its terminator. -/
theorem cntL_le_len : ∀ (xs : List Value), cntL xs ≤ (encL xs).length + 1
  | [] => by simp [cntL, encL]
  | x :: xs => by
    have h1 := cntV_le_len x
    have h2 := cntL_le_len xs
    have h3 := encV_len_pos x
    simp only [cntL, encL, List.length_append]
    omega

/-- Decoder fuel for entry lists is bounded by the encoding length plus
its terminator. -/
theorem cntM_le_len : ∀ (m : List (String × Value)), cntM m ≤ (encM m).length + 1
  | [] => by simp [cntM, encM]
  | (k, x) :: m => by
    have h1 := cntV_le_len x
    have h2 := cntM_le_len m
    have h3 := encStrChars_len k.data
    simp only [cntM, encM, List.length_cons, List.length_append]
    omega

end

mutual

/-- Payload encodings contain no quote and no backslash. -/
theorem encV_safe : ∀ (v : Value), ∀ c ∈ encV v, c ≠ '"' ∧ c ≠ '\\'
  | .vUndefined => by intro c hc; simp [encV] at hc; simp [hc]
  | .vNull => by intro c hc; simp [encV] at hc; simp [hc]
  | .vBool true => by intro c hc; simp [encV] at hc; simp [hc]
  | .vBool false => by intro c hc; simp [encV] at hc; simp [hc]
  | .vNum i => by
    intro c hc
    simp only [encV, encNat, List.cons_append, List.mem_cons, List.mem_append,
      List.mem_singleton, List.not_mem_nil, or_false] at hc
    rcases hc with hc | hc | hc
    · subst hc; split <;> simp
    · rcases encNatBin_mem i.natAbs c hc with h0 | h0 <;> simp [h0]
    · simp [hc]
  | .vStr s => by
    intro c hc
    simp only [encV, List.mem_cons] at hc
    rcases hc with hc | hc
    · simp [hc]
    · rcases encStrChars_mem s.data c hc with h0 | h0 | h0 | h0 <;> simp [h0]
  | .vList xs => by
    intro c hc
    simp only [encV, List.mem_cons, List.mem_append, List.mem_singleton,
      List.not_mem_nil, or_false] at hc
    rcases hc with hc | hc | hc
    · simp [hc]
    · exact encL_safe xs c hc
    · simp [hc]
  | .vMap m => by
    intro c hc
    simp only [encV, List.mem_cons, List.mem_append, List.mem_singleton,
      List.not_mem_nil, or_false] at hc
    rcases hc with hc | hc | hc
    · simp [hc]
    · exact encM_safe m c hc
    · simp [hc]

/-- Element-list encodings contain no quote and no backslash. -/
theorem encL_safe : ∀ (xs : List Value), ∀ c ∈ encL xs, c ≠ '"' ∧ c ≠ '\\'
  | [] => by intro c hc; simp [encL] at hc
  | x :: xs => by
    intro c hc
    simp only [encL, List.mem_append] at hc
    rcases hc with hc | hc
    · exact encV_safe x c hc
    · exact encL_safe xs c hc

/-- Entry-list encodings contain no quote and no backslash. -/
theorem encM_safe : ∀ (m : List (String × Value)), ∀ c ∈ encM m, c ≠ '"' ∧ c ≠ '\\'
  | [] => by intro c hc; simp [encM] at hc
  | (k, x) :: m => by
    intro c hc
    simp only [encM, List.mem_cons, List.mem_append] at hc
    rcases hc with hc | ((hc | hc) | hc)
    · simp [hc]
    · rcases encStrChars_mem k.data c hc with h0 | h0 | h0 | h0 <;> simp [h0]
    · exact encV_safe x c hc
    · exact encM_safe m c hc

end


/-- Skipping whitespace leaves a non-whitespace head alone. -/
theorem skipWs_not_ws (c : Char) (r : List Char) (h : isWsChar c = false) :
    skipWs (c :: r) = c :: r := by
  simp [skipWs, h]

/-- The string-literal scanner consumes a quote-free, backslash-free chunk
up to its closing quote. -/
theorem pStringAux_safe : ∀ (cs : List Char), (∀ c ∈ cs, c ≠ '"' ∧ c ≠ '\\') →
    ∀ (f : Nat) (rest : List Char), cs.length + 1 ≤ f →
      pStringAux f (cs ++ '"' :: rest) = some (cs, rest) := by
  intro cs
  induction cs with
  | nil =>
    intro _ f rest hf
    obtain ⟨f', rfl⟩ : ∃ f', f = f' + 1 := ⟨f - 1, by omega⟩
    simp [pStringAux]
  | cons c cs ih =>
    intro hsafe f rest hf
    obtain ⟨f', rfl⟩ : ∃ f', f = f' + 1 := ⟨f - 1, by omega⟩
    have hc := hsafe c (List.mem_cons_self c cs)
    simp only [List.cons_append, pStringAux, if_neg hc.1, if_neg hc.2]
    have ihh := ih (fun x hx => hsafe x (List.mem_cons_of_mem c hx)) f' rest
      (by simp only [List.length_cons] at hf; omega)
    simp [List.append_eq, ihh]

/-- The value parser on an object whose first member key opens
immediately. -/
theorem pValue_objStep (f : Nat) (r : List Char) :
    pValue (f + 1) ('\x7b' :: '"' :: r) = pMembers f ('"' :: r) [] := by
  rw [pValue]
  rfl

/-- The member parser on the concrete `"json":"` scaffold. -/
theorem pMembers_jsonStep (f : Nat) (acc : List (String × Value)) (w : List Char) :
    pMembers (f + 1) ('"' :: 'j' :: 's' :: 'o' :: 'n' :: '"' :: ':' :: '"' :: w) acc
      = (do
          let p ← pValue f ('"' :: w)
          match skipWs p.2 with
          | ',' :: r6 => pMembers f (skipWs r6) (acc ++ [("json", p.1)])
          | '\x7d' :: r6 => some (.vMap (acc ++ [("json", p.1)]), r6)
          | _ => none) := by
  have hscan : pString ('j' :: 's' :: 'o' :: 'n' :: '"' :: (':' :: '"' :: w))
      = some ("json", ':' :: '"' :: w) := by
    have h := pStringAux_safe ['j', 's', 'o', 'n'] (by decide)
      (('j' :: 's' :: 'o' :: 'n' :: '"' :: (':' :: '"' :: w)).length + 1) (':' :: '"' :: w)
      (by simp)
    simp only [pString]
    rw [show ('j' :: 's' :: 'o' :: 'n' :: '"' :: (':' :: '"' :: w))
      = ['j', 's', 'o', 'n'] ++ '"' :: (':' :: '"' :: w) from rfl] at h ⊢
    rw [h]
    rfl
  rw [pMembers]
  simp only [hscan]
  rfl

/-- The value parser on a string literal over the safe alphabet. -/
theorem pValue_strStep (f : Nat) (safe t : List Char)
    (hs : ∀ c ∈ safe, c ≠ '"' ∧ c ≠ '\\') :
    pValue (f + 1) ('"' :: (safe ++ '"' :: t)) = some (.vStr (String.mk safe), t) := by
  have h := pStringAux_safe safe hs ((safe ++ '"' :: t).length + 1) t (by simp)
  rw [pValue]
  rw [skipWs_not_ws _ _ (by decide)]
  show (pString (safe ++ '"' :: t)).map (fun p => (Value.vStr p.1, p.2))
      = some (.vStr (String.mk safe), t)
  rw [pString, h]
  rfl

/-- Parsing the superjson wire format of the codec model yields the
single-field object its detector looks for. -/
theorem jsonParse_image (v : Value) :
    jsonParse (superjsonStringify v)
      = some (.vMap [("json", .vStr (String.mk (encV v)))]) := by
  have hsafe := encV_safe v
  have hlen : (superjsonStringify v).length = (encV v).length + 11 := by
    simp [superjsonStringify, sjPre, sjSuf, String.length]
  have hdata : (superjsonStringify v).data
      = '\x7b' :: '"' :: ('j' :: 's' :: 'o' :: 'n' :: '"' :: ':' :: '"'
        :: (encV v ++ '"' :: ['\x7d'])) := by
    simp [superjsonStringify, sjPre, sjSuf]
  unfold jsonParse
  rw [hlen, hdata]
  rw [show (encV v).length + 11 + 1 = ((encV v).length + 11) + 1 from rfl]
  rw [pValue_objStep]
  rw [show (encV v).length + 11 = ((encV v).length + 10) + 1 from rfl]
  rw [pMembers_jsonStep]
  rw [show (encV v).length + 10 = ((encV v).length + 9) + 1 from rfl]
  rw [pValue_strStep _ _ _ hsafe]
  rfl

/-- The codec model's own decoder recovers the value from its wire
format. -/
theorem decodeImage_image (v : Value) : decodeImage (superjsonStringify v) = some v := by
  have hdata : (superjsonStringify v).data
      = '\x7b' :: '"' :: 'j' :: 's' :: 'o' :: 'n' :: '"' :: ':' :: '"'
        :: (encV v ++ '"' :: ['\x7d']) := by
    simp [superjsonStringify, sjPre, sjSuf]
  unfold decodeImage
  rw [hdata]
  show (match decV ((encV v ++ '"' :: ['\x7d']).length + 1) (encV v ++ '"' :: ['\x7d']) with
        | some (w, ['"', '\x7d']) => some w
        | _ => none) = some v
  rw [decV_encV v ((encV v ++ '"' :: ['\x7d']).length + 1) ('"' :: ['\x7d'])
    (by have := cntV_le_len v; simp only [List.length_append]; omega)]
  rfl

/-- The superjson model parses its own encoder's output back to the
value. -/
theorem superjsonParse_image (v : Value) :
    superjsonParse (superjsonStringify v) = .ok v := by
  unfold superjsonParse
  rw [decodeImage_image]

/-- A wire-format image passes the `isJsonString` check. -/
theorem isJsonString_image (v : Value) : isJsonString (superjsonStringify v) = true := by
  unfold isJsonString
  rw [jsonParse_image]
  rfl

/-- A wire-format image passes the `isSuperJsonFormat` check. -/
theorem isSuperJsonFormat_image (v : Value) :
    isSuperJsonFormat (superjsonStringify v) = true := by
  unfold isSuperJsonFormat
  rw [jsonParse_image]
  simp [mapHas]

/-- Round trip of the codec on non-string values: `deserialize` recovers
any value `serialize` sent through `superjson.stringify`. -/
theorem deserialize_serialize_nonstring (v : Value) (hv : isString v = false) :
    deserialize (some (serialize v)) = v := by
  have hser : serialize v = superjsonStringify v := by
    cases v
    case vStr s => simp [isString] at hv
    all_goals rfl
  rw [hser]
  unfold deserialize
  show (if isSuperJsonFormat (superjsonStringify v) = true then
          match superjsonParse (superjsonStringify v) with
          | Except.ok w => w
          | Except.error _ => jsonFallback (superjsonStringify v)
        else jsonFallback (superjsonStringify v)) = v
  rw [isSuperJsonFormat_image, superjsonParse_image]
  simp

/-- Claim C4 (counterexample): the round trip fails on plain strings that
are themselves valid JSON — `serialize` passes the string "123" through
unchanged, and `deserialize` then parses it as the number 123, which is
not structurally equal to the string. -/
theorem C4_codec_roundtrip_counterexample :
    deserialize (some (serialize (.vStr "123"))) = .vNum 123 ∧
      deserialize (some (serialize (.vStr "123"))) ≠ .vStr "123" := by
  constructor
  · rfl
  · decide

/-- Claim C4 (amended): `deserialize (serialize v) = v` holds for every
non-string value; plain strings pass through `serialize` unchanged, and
their round trip holds exactly when the string is not itself parseable as
JSON (JSON is modelled with integer numerics). -/
theorem C4_codec_roundtrip_amended :
    (∀ v : Value, isString v = false → deserialize (some (serialize v)) = v) ∧
      (∀ s : String, serialize (.vStr s) = s) ∧
      (∀ s : String, jsonParse s = none → deserialize (some (serialize (.vStr s))) = .vStr s) := by
  refine ⟨deserialize_serialize_nonstring, fun s => rfl, fun s hs => ?_⟩
  show deserialize (some s) = .vStr s
  have hsj : isSuperJsonFormat s = false := by
    unfold isSuperJsonFormat
    rw [hs]
  unfold deserialize
  show (if isSuperJsonFormat s = true then
          match superjsonParse s with
          | Except.ok w => w
          | Except.error _ => jsonFallback s
        else jsonFallback s) = .vStr s
  rw [hsj]
  show jsonFallback s = .vStr s
  unfold jsonFallback
  rw [hs]

/-- Claim C4 witness: the amended round trip at concrete inputs. -/
theorem C4_codec_roundtrip_witness :
    deserialize (some (serialize (.vMap [("a", .vList [.vNum 1, .vNull])])))
        = .vMap [("a", .vList [.vNum 1, .vNull])] ∧
      serialize (.vStr "hello") = "hello" ∧
      deserialize (some (serialize (.vStr "hello"))) = .vStr "hello" :=
  ⟨C4_codec_roundtrip_amended.1 _ rfl,
   C4_codec_roundtrip_amended.2.1 "hello",
   C4_codec_roundtrip_amended.2.2 "hello" (by rfl)⟩


/-- Setting a list slot back to its own value is the identity. -/
theorem list_set_getD (xs : List Value) (i : Nat) (h : i < xs.length) :
    xs.set i (listGet xs i) = xs := by
  induction xs generalizing i with
  | nil => simp at h
  | cons x rest ih =>
    cases i with
    | zero => simp [listGet]
    | succ j =>
      simp only [listGet, List.getD_cons_succ, List.set_cons_succ]
      rw [show rest.getD j Value.vUndefined = listGet rest j from rfl, ih j (by simpa using h)]

/-- Writing a key's own value back into a map is the identity. -/
theorem mapSet_mapGet (m : List (String × Value)) (k : String) (h : mapHas m k = true) :
    mapSet m k (mapGet m k) = m := by
  induction m with
  | nil => simp [mapHas] at h
  | cons p rest ih =>
    by_cases hk : p.1 = k
    · cases p with
      | mk k' v' =>
        simp only at hk
        subst hk
        simp [mapSet, mapGet]
    · cases p with
      | mk k' v' =>
        simp only at hk
        have hrest : mapHas rest k = true := by
          simp [mapHas, hk] at h
          simpa [mapHas] using h
        simp only [mapSet, if_neg hk, mapGet, List.find?]
        simp only [show (decide (k' = k)) = false by simp [hk]]
        rw [show (match List.find? (fun p => decide (p.1 = k)) rest with
              | some p => p.2
              | none => Value.vUndefined) = mapGet rest k from rfl]
        rw [ih hrest]

/-- Reading back the key just written into a map. -/
theorem mapGet_mapSet (m : List (String × Value)) (k : String) (v : Value) :
    mapGet (mapSet m k v) k = v := by
  induction m with
  | nil => simp [mapSet, mapGet, List.find?]
  | cons p rest ih =>
    cases p with
    | mk k' v' =>
      by_cases hk : k' = k
      · subst hk
        simp [mapSet, mapGet, List.find?]
      · simp only [mapSet, if_neg hk, mapGet, List.find?]
        simp only [show (decide (k' = k)) = false by simp [hk]]
        exact ih

/-- A freshly created container is never nullish. -/
theorem isNullish_seedBy (b : Bool) : isNullish (seedBy b) = false := by
  cases b <;> rfl

/-- The unfolded form of a freshly created container is never nullish. -/
theorem isNullish_seed_ite (b : Bool) :
    isNullish (if b = true then Value.vList [] else Value.vMap []) = false := by
  cases b <;> rfl

/-- The empty marker is nullish. -/
theorem isNullish_vUndefined : isNullish Value.vUndefined = true := rfl

/-- With `createPath` disabled the traversal core never rewrites the tree:
whatever the outcome (value, suppressed error, or thrown error), the
returned tree is the input. -/
theorem travK_no_mutation (ste : Option (TravErr → Bool)) (K : Value → Value × TravOut)
    (hK : ∀ x, (K x).1 = x) :
    ∀ (toGo : List String) (cur : Value) (after : Option String),
      (travK false ste K cur toGo after).1 = cur := by
  intro toGo
  induction toGo with
  | nil => intro cur after; exact hK cur
  | cons seg rest ih =>
    intro cur after
    by_cases hseg : isArrayIndex seg
    · rcases cur with _ | _ | b | n | s | arr | m
      · simp [travK, hseg]
      · simp [travK, hseg]
      · simp [travK, hseg]
      · simp [travK, hseg]
      · simp [travK, hseg]
      · simp only [travK, if_pos hseg]
        by_cases hneg : parseIntJS seg < 0
        · simp [if_pos hneg]
        · simp only [if_neg hneg]
          by_cases hoob : arr.length ≤ (parseIntJS seg).toNat
          · simp [hoob]
          · simp only [hoob, false_and, if_false, if_neg hoob]
            by_cases hnull : isNullish (listGet arr (parseIntJS seg).toNat) = true
            · simp [hnull]
            · simp [hnull, ih]
              exact list_set_getD arr _ (by omega)
      · simp [travK, hseg]
    · rcases cur with _ | _ | b | n | s | arr | m
      · simp [travK, hseg]
      · simp [travK, hseg]
      · simp [travK, hseg]
      · simp [travK, hseg]
      · simp [travK, hseg]
      · simp [travK, hseg]
      · by_cases hhas : mapHas m seg
        · simp only [travK, if_neg hseg, hhas]
          simp only [not_true_eq_false, false_and, if_false]
          split
          · rfl
          · rw [ih (mapGet m seg) after]
            exact congrArg Value.vMap (mapSet_mapGet m seg hhas)
        · simp [travK, hseg, hhas]

/-- Claim C10: with `createPath` disabled, `traversePath` never mutates
the input tree, for every `stopBeforeLast` / `shouldThrowError` setting
and whatever the outcome is. -/
theorem C10_traverse_read_no_mutation (obj : Value) (path : List String)
    (o : TraverseOptions) (h : o.createPath = false) :
    (traversePath obj path o).1 = obj := by
  unfold traversePath
  rw [h]
  by_cases hstop : o.stopBeforeLast = true
  · rw [if_pos hstop]
    exact travK_no_mutation o.shouldThrowError _ (fun _ => rfl) path.dropLast obj path.getLast?
  · rw [if_neg hstop]
    exact travK_no_mutation o.shouldThrowError _ (fun _ => rfl) path obj none

/-- Claim C10 witness: a concrete failing read (missing property, error
suppressed) leaves the tree untouched. -/
theorem C10_traverse_read_no_mutation_witness :
    (traversePath (.vMap [("a", .vNum 1)]) ["b", "c"]
        { shouldThrowError := some (fun _ => false) }).1 = .vMap [("a", .vNum 1)] :=
  C10_traverse_read_no_mutation _ _ _ rfl

/-- Classification never yields a negative index: every segment accepted
by `isArrayIndex` parses to a non-negative integer. -/
theorem isArrayIndex_nonneg (s : String) (h : isArrayIndex s = true) :
    0 ≤ parseIntJS s := by
  unfold isArrayIndex at h
  unfold parseIntJS
  cases hd : s.data with
  | nil => simp
  | cons c rest =>
    rw [hd] at h
    simp only [List.isEmpty_cons, Bool.not_false, Bool.true_and, List.all_cons,
      Bool.and_eq_true] at h
    have hc : c ≠ '-' := by
      intro hcc
      subst hcc
      simp [Char.isDigit] at h
    simp only [if_neg hc]
    rw [Int.ofNat_eq_natCast]
    positivity

/-- The error funnel never fabricates a different error kind. -/
theorem mkOut_ne (ste : Option (TravErr → Bool)) (e e' : TravErr) (h : e ≠ e') :
    mkOut ste e ≠ .error e' := by
  cases ste with
  | none => simp [mkOut, h]
  | some f =>
    by_cases hf : f e = true
    · simp [mkOut, hf, h]
    · simp [mkOut, hf]

/-- The traversal core never reaches the `NegativeIndex` branch: its guard
is unsatisfiable for segments classified as indexes. -/
theorem travK_no_negIdx (cp : Bool) (ste : Option (TravErr → Bool))
    (K : Value → Value × TravOut)
    (hK : ∀ x, (K x).2 ≠ Except.error TravErr.negativeIndex) :
    ∀ (toGo : List String) (cur : Value) (after : Option String),
      (travK cp ste K cur toGo after).2 ≠ .error .negativeIndex := by
  cases cp with
  | false =>
    intro toGo
    induction toGo with
    | nil => intro cur after; exact hK cur
    | cons seg rest ih =>
      intro cur after
      by_cases hseg : isArrayIndex seg
      · rcases cur with _ | _ | b | n | s | arr | m
        · simp only [travK, if_pos hseg]
          exact mkOut_ne ste TravErr.notAnArray TravErr.negativeIndex (by decide)
        · simp only [travK, if_pos hseg]
          exact mkOut_ne ste TravErr.notAnArray TravErr.negativeIndex (by decide)
        · simp only [travK, if_pos hseg]
          exact mkOut_ne ste TravErr.notAnArray TravErr.negativeIndex (by decide)
        · simp only [travK, if_pos hseg]
          exact mkOut_ne ste TravErr.notAnArray TravErr.negativeIndex (by decide)
        · simp only [travK, if_pos hseg]
          exact mkOut_ne ste TravErr.notAnArray TravErr.negativeIndex (by decide)
        · have hneg : ¬parseIntJS seg < 0 := by
            have := isArrayIndex_nonneg seg hseg
            omega
          simp only [travK, if_pos hseg, if_neg hneg]
          by_cases hoob : arr.length ≤ (parseIntJS seg).toNat
          · simp [hoob]
            exact mkOut_ne ste TravErr.indexOutOfBounds TravErr.negativeIndex (by decide)
          · simp [hoob]
            by_cases hnull : isNullish (listGet arr (parseIntJS seg).toNat) = true
            · simp [hnull]
              exact mkOut_ne ste TravErr.pathNotFound TravErr.negativeIndex (by decide)
            · simp [hnull]
              exact ih _ after
        · simp only [travK, if_pos hseg]
          exact mkOut_ne ste TravErr.notAnArray TravErr.negativeIndex (by decide)
      · rcases cur with _ | _ | b | n | s | arr | m
        · simp only [travK, if_neg hseg]
          exact mkOut_ne ste TravErr.notAnObject TravErr.negativeIndex (by decide)
        · simp only [travK, if_neg hseg]
          exact mkOut_ne ste TravErr.notAnObject TravErr.negativeIndex (by decide)
        · simp only [travK, if_neg hseg]
          exact mkOut_ne ste TravErr.notAnObject TravErr.negativeIndex (by decide)
        · simp only [travK, if_neg hseg]
          exact mkOut_ne ste TravErr.notAnObject TravErr.negativeIndex (by decide)
        · simp only [travK, if_neg hseg]
          exact mkOut_ne ste TravErr.notAnObject TravErr.negativeIndex (by decide)
        · simp only [travK, if_neg hseg]
          exact mkOut_ne ste TravErr.notAnObject TravErr.negativeIndex (by decide)
        · simp only [travK, if_neg hseg]
          by_cases hhas : mapHas m seg = true
          · simp [hhas]
            split
            · exact mkOut_ne ste TravErr.nullInPath TravErr.negativeIndex (by decide)
            · exact ih _ after
          · simp [hhas]
            exact mkOut_ne ste TravErr.propertyMissing TravErr.negativeIndex (by decide)
  | true =>
    intro toGo
    induction toGo with
    | nil => intro cur after; exact hK cur
    | cons seg rest ih =>
      intro cur after
      by_cases hseg : isArrayIndex seg
      · rcases cur with _ | _ | b | n | s | arr | m
        · simp only [travK, if_pos hseg]
          exact mkOut_ne ste TravErr.notAnArray TravErr.negativeIndex (by decide)
        · simp only [travK, if_pos hseg]
          exact mkOut_ne ste TravErr.notAnArray TravErr.negativeIndex (by decide)
        · simp only [travK, if_pos hseg]
          exact mkOut_ne ste TravErr.notAnArray TravErr.negativeIndex (by decide)
        · simp only [travK, if_pos hseg]
          exact mkOut_ne ste TravErr.notAnArray TravErr.negativeIndex (by decide)
        · simp only [travK, if_pos hseg]
          exact mkOut_ne ste TravErr.notAnArray TravErr.negativeIndex (by decide)
        · have hneg : ¬parseIntJS seg < 0 := by
            have := isArrayIndex_nonneg seg hseg
            omega
          simp only [travK, if_pos hseg, if_neg hneg]
          by_cases hoob : arr.length ≤ (parseIntJS seg).toNat
          · simp [hoob]
            by_cases hnull :
                isNullish (listGet (listExtend arr (parseIntJS seg).toNat) (parseIntJS seg).toNat) = true
            · simp [hnull, isNullish_seedBy]
              exact ih _ after
            · simp [hnull]
              exact ih _ after
          · simp [hoob]
            by_cases hnull : isNullish (listGet arr (parseIntJS seg).toNat) = true
            · simp [hnull, isNullish_seedBy]
              exact ih _ after
            · simp [hnull]
              exact ih _ after
        · simp only [travK, if_pos hseg]
          exact mkOut_ne ste TravErr.notAnArray TravErr.negativeIndex (by decide)
      · rcases cur with _ | _ | b | n | s | arr | m
        · simp only [travK, if_neg hseg]
          exact mkOut_ne ste TravErr.notAnObject TravErr.negativeIndex (by decide)
        · simp only [travK, if_neg hseg]
          exact mkOut_ne ste TravErr.notAnObject TravErr.negativeIndex (by decide)
        · simp only [travK, if_neg hseg]
          exact mkOut_ne ste TravErr.notAnObject TravErr.negativeIndex (by decide)
        · simp only [travK, if_neg hseg]
          exact mkOut_ne ste TravErr.notAnObject TravErr.negativeIndex (by decide)
        · simp only [travK, if_neg hseg]
          exact mkOut_ne ste TravErr.notAnObject TravErr.negativeIndex (by decide)
        · simp only [travK, if_neg hseg]
          exact mkOut_ne ste TravErr.notAnObject TravErr.negativeIndex (by decide)
        · simp only [travK, if_neg hseg]
          by_cases hhas : mapHas m seg = true
          · simp [hhas]
            split
            · exact mkOut_ne ste TravErr.nullInPath TravErr.negativeIndex (by decide)
            · exact ih _ after
          · simp [hhas, mapGet_mapSet, isNullish_seedBy]
            exact ih _ after

/-- The final `_setDeep` step never reaches its `NegativeIndex` branch
either. -/
theorem setDeepFin_no_negIdx (rm cp : Bool) (value : Value) (lastSegment : String)
    (parent : Value) :
    (setDeepFin rm cp value lastSegment parent).2 ≠ .error .negativeIndex := by
  by_cases hseg : isArrayIndex lastSegment
  · rcases parent with _ | _ | b | n | s | arr | m
    · simp [setDeepFin, hseg]
    · simp [setDeepFin, hseg]
    · simp [setDeepFin, hseg]
    · simp [setDeepFin, hseg]
    · simp [setDeepFin, hseg]
    · have hneg : ¬parseIntJS lastSegment < 0 := by
        have := isArrayIndex_nonneg lastSegment hseg
        omega
      simp only [setDeepFin, if_pos hseg, if_neg hneg]
      by_cases hoob : arr.length ≤ (parseIntJS lastSegment).toNat
      · by_cases hcp : cp = true
        · simp [hoob, hcp]
        · simp [hoob, hcp]
      · simp [hoob]
    · simp [setDeepFin, hseg]
  · rcases parent with _ | _ | b | n | s | arr | m
    · simp [setDeepFin, hseg]
    · simp [setDeepFin, hseg]
    · simp [setDeepFin, hseg]
    · simp [setDeepFin, hseg]
    · simp [setDeepFin, hseg]
    · simp [setDeepFin, hseg]
    · simp [setDeepFin, hseg]

/-- Claim C9: segments accepted by `isArrayIndex` always parse to
non-negative integers, so neither `traversePath` nor `_setDeep` can ever
produce the `NegativeIndex` error — the branch is unreachable through
parsing. -/
theorem C9_negative_index_unreachable :
    (∀ s : String, isArrayIndex s = true → 0 ≤ parseIntJS s) ∧
      (∀ (obj : Value) (path : List String) (o : TraverseOptions),
        (traversePath obj path o).2 ≠ .error .negativeIndex) ∧
      (∀ (obj : Value) (path : List String) (value : Value) (o : SetDeepOptions),
        (Storadapt.setDeep obj path value o).2 ≠ .error .negativeIndex) := by
  refine ⟨isArrayIndex_nonneg, ?_, ?_⟩
  · intro obj path o
    unfold traversePath
    by_cases hstop : o.stopBeforeLast = true
    · rw [if_pos hstop]
      exact travK_no_negIdx o.createPath o.shouldThrowError _ (fun x => by simp)
        path.dropLast obj path.getLast?
    · rw [if_neg hstop]
      exact travK_no_negIdx o.createPath o.shouldThrowError _ (fun x => by simp)
        path obj none
  · intro obj path value o
    unfold Storadapt.setDeep
    exact travK_no_negIdx _ none _
      (fun x => setDeepFin_no_negIdx _ _ value (lastSegOf path) x)
      path.dropLast obj path.getLast?

/-- Claim C9 witness: concrete instances of each conjunct. -/
theorem C9_negative_index_unreachable_witness :
    0 ≤ parseIntJS "5" ∧
      (traversePath (.vList [.vNum 7]) ["0"] {}).2 ≠ .error .negativeIndex ∧
      (Storadapt.setDeep (.vList [.vNum 7]) ["0"] (.vNum 8) {}).2 ≠ .error .negativeIndex :=
  ⟨C9_negative_index_unreachable.1 "5" (by decide),
   C9_negative_index_unreachable.2.1 _ _ _,
   C9_negative_index_unreachable.2.2 _ _ _ _⟩

/-- Claim C3 (counterexample): a key segment that resolves to a present
but `null` slot at a non-terminal position does not get a container
created even with `createPath` enabled — the traversal throws `NullInPath`
and leaves the tree unchanged. -/
theorem C3_lookahead_creation_counterexample :
    traversePath (.vMap [("a", .vNull)]) ["a", "b"] { createPath := true }
      = (.vMap [("a", .vNull)], .error .nullInPath) := by
  rfl

/-- Claim C3 (amended): with `createPath` enabled, an index segment whose
slot is missing (beyond the length, after auto-extension) or null gets a
fresh container chosen by the next segment's classification, and a key
segment missing from its map likewise; but a key segment present with a
null/undefined value creates nothing and raises `NullInPath` at a
non-terminal position. -/
theorem C3_lookahead_creation_amended :
    (∀ (ste : Option (TravErr → Bool)) (K : Value → Value × TravOut)
        (arr : List Value) (seg : String) (rest : List String) (after : Option String),
        isArrayIndex seg = true →
        isNullish (listGet (if arr.length ≤ (parseIntJS seg).toNat then
          listExtend arr (parseIntJS seg).toNat else arr) (parseIntJS seg).toNat) = true →
        travK true ste K (.vList arr) (seg :: rest) after
          = ((.vList ((if arr.length ≤ (parseIntJS seg).toNat then
                listExtend arr (parseIntJS seg).toNat else arr).set (parseIntJS seg).toNat
                (travK true ste K (seedBy (isNextArr rest after)) rest after).1)),
             (travK true ste K (seedBy (isNextArr rest after)) rest after).2)) ∧
      (∀ (ste : Option (TravErr → Bool)) (K : Value → Value × TravOut)
          (m : List (String × Value)) (seg : String) (rest : List String)
          (after : Option String),
          isArrayIndex seg = false →
          mapHas m seg = false →
          travK true ste K (.vMap m) (seg :: rest) after
            = ((.vMap (mapSet (mapSet m seg (seedBy (isNextArr rest after))) seg
                  (travK true ste K (seedBy (isNextArr rest after)) rest after).1)),
               (travK true ste K (seedBy (isNextArr rest after)) rest after).2)) ∧
      (∀ (ste : Option (TravErr → Bool)) (K : Value → Value × TravOut)
          (m : List (String × Value)) (seg : String) (rest : List String)
          (after : Option String),
          isArrayIndex seg = false →
          mapHas m seg = true →
          isNullish (mapGet m seg) = true →
          rest ≠ [] →
          travK true ste K (.vMap m) (seg :: rest) after
            = (.vMap m, mkOut ste .nullInPath)) := by
  refine ⟨?_, ?_, ?_⟩
  · intro ste K arr seg rest after hseg hnull
    have hneg : ¬parseIntJS seg < 0 := by
      have := isArrayIndex_nonneg seg hseg
      omega
    simp only [travK, if_pos hseg, if_neg hneg]
    by_cases hoob : arr.length ≤ (parseIntJS seg).toNat
    · rw [if_pos hoob] at hnull ⊢
      simp [hnull, isNullish_seedBy, hoob]
    · rw [if_neg hoob] at hnull ⊢
      simp [hnull, isNullish_seedBy, hoob]
  · intro ste K m seg rest after hseg hhas
    simp only [travK, hseg, Bool.false_eq_true, if_false]
    simp [hhas, mapGet_mapSet, isNullish_seedBy]
  · intro ste K m seg rest after hseg hhas hnull hrest
    simp only [travK, hseg, Bool.false_eq_true, if_false]
    simp [hhas, hnull, hrest]

/-- Claim C3 witness: the amended behaviour at concrete inputs — a null
list slot gets a map container (next segment is a key), a missing map key
gets a list container (next segment is an index), and a present null key
raises `NullInPath`. -/
theorem C3_lookahead_creation_witness :
    travK true none (fun cur => (cur, .ok cur)) (.vList [.vNull]) ["0", "b"] none
        = ((.vList [(travK true none (fun cur => (cur, .ok cur))
            (seedBy (isNextArr ["b"] none)) ["b"] none).1]),
           (travK true none (fun cur => (cur, .ok cur))
            (seedBy (isNextArr ["b"] none)) ["b"] none).2) ∧
      travK true none (fun cur => (cur, .ok cur)) (.vMap []) ["a", "0"] none
        = ((.vMap (mapSet (mapSet [] "a" (seedBy (isNextArr ["0"] none))) "a"
              (travK true none (fun cur => (cur, .ok cur))
                (seedBy (isNextArr ["0"] none)) ["0"] none).1)),
           (travK true none (fun cur => (cur, .ok cur))
            (seedBy (isNextArr ["0"] none)) ["0"] none).2) ∧
      travK true none (fun cur => (cur, .ok cur)) (.vMap [("a", .vNull)]) ["a", "b"] none
        = (.vMap [("a", .vNull)], mkOut none .nullInPath) :=
  ⟨C3_lookahead_creation_amended.1 none _ [.vNull] "0" ["b"] none (by decide) (by decide),
   C3_lookahead_creation_amended.2.1 none _ [] "a" ["0"] none (by decide) (by decide),
   C3_lookahead_creation_amended.2.2 none _ [("a", .vNull)] "a" ["b"] none (by decide)
     (by decide) (by decide) (by decide)⟩

/-- Claim C5: a final index segment at or beyond the list length fails
with `IndexOutOfBounds` when `createPath` is off, and with `createPath` on
extends the list with `undefined` markers so that its length becomes
`n + 1` before writing; concretely, on `items = ["a","b"]`,
`set("items.5","x")` without `createPath` aborts with `IndexOutOfBounds`
and leaves the store untouched, while with `createPath` the stored list
has length 6 with empty markers in slots 2–4. -/
theorem C5_index_out_of_bounds :
    (∀ (arr : List Value) (seg : String) (v : Value),
        isArrayIndex seg = true →
        arr.length ≤ (parseIntJS seg).toNat →
        Storadapt.setDeep (.vList arr) [seg] v {} = (.vList arr, .error .indexOutOfBounds) ∧
          Storadapt.setDeep (.vList arr) [seg] v { createPath := some true }
            = (.vList ((arr ++ List.replicate ((parseIntJS seg).toNat + 1 - arr.length)
                Value.vUndefined).set (parseIntJS seg).toNat v), .ok .vUndefined) ∧
          (arr ++ List.replicate ((parseIntJS seg).toNat + 1 - arr.length)
            Value.vUndefined).length = (parseIntJS seg).toNat + 1) ∧
      Storadapt.setBody memAdapter
          [("items", superjsonStringify (.vList [.vStr "a", .vStr "b"]))]
          "items.5" (.vStr "x") {} = .error (.trav .indexOutOfBounds) ∧
      Storadapt.set memAdapter
          [("items", superjsonStringify (.vList [.vStr "a", .vStr "b"]))]
          "items.5" (.vStr "x") {}
        = [("items", superjsonStringify (.vList [.vStr "a", .vStr "b"]))] ∧
      Storadapt.set memAdapter
          [("items", superjsonStringify (.vList [.vStr "a", .vStr "b"]))]
          "items.5" (.vStr "x") { createPath := some true }
        = [("items", superjsonStringify
            (.vList [.vStr "a", .vStr "b", .vUndefined, .vUndefined, .vUndefined, .vStr "x"]))] := by
  refine ⟨?_, by rfl, by rfl, by rfl⟩
  intro arr seg v hseg hoob
  have hneg : ¬parseIntJS seg < 0 := by
    have := isArrayIndex_nonneg seg hseg
    omega
  refine ⟨?_, ?_, ?_⟩
  · show setDeepFin false false v (lastSegOf [seg]) (.vList arr)
      = (.vList arr, .error .indexOutOfBounds)
    simp [setDeepFin, lastSegOf, hseg, hneg, hoob]
  · show setDeepFin false true v (lastSegOf [seg]) (.vList arr) = _
    simp [setDeepFin, lastSegOf, hseg, hneg, hoob, setOrRemoveList, listExtend]
  · simp only [List.length_append, List.length_replicate]
    omega

/-- Claim C5 witness: the general bounds behaviour at a concrete list and
segment. -/
theorem C5_index_out_of_bounds_witness :
    Storadapt.setDeep (.vList [.vStr "a", .vStr "b"]) ["5"] (.vStr "x") {}
        = (.vList [.vStr "a", .vStr "b"], .error .indexOutOfBounds) ∧
      Storadapt.setDeep (.vList [.vStr "a", .vStr "b"]) ["5"] (.vStr "x")
          { createPath := some true }
        = (.vList (([Value.vStr "a", Value.vStr "b"]
            ++ List.replicate ((parseIntJS "5").toNat + 1 - 2) Value.vUndefined).set
              (parseIntJS "5").toNat (Value.vStr "x")), .ok .vUndefined) :=
  ⟨(C5_index_out_of_bounds.1 [.vStr "a", .vStr "b"] "5" (.vStr "x") (by decide)
      (by decide)).1,
   (C5_index_out_of_bounds.1 [.vStr "a", .vStr "b"] "5" (.vStr "x") (by decide)
      (by decide)).2.1⟩

/-- Claim C6: a deep `set` whose storage key is absent synthesizes the
in-memory root from the first path segment's classification (index → empty
list, key → empty map); `_parseDeepPath` takes no `createPath` input, so
the synthesis is independent of that option.  Concretely, a deep write at
`items.0` on a non-existent root persists a list and one at `config.theme`
persists a map. -/
theorem C6_root_synthesis :
    (∀ {σ : Type} (A : StorageAdapter σ) (s : σ) (key : String) (di : Nat)
        (info : DeepPathInfo),
        A.getItem s (String.mk (key.data.take di)) = .ok none →
        Storadapt.parseDeepPath A s key di .set = .ok (some info) →
        info.rootValue
          = if isArrayIndex (seg0 (parsePath (String.mk (key.data.drop (di + 1)))))
            then .vList [] else .vMap []) ∧
      Storadapt.set memAdapter [] "items.0" (.vStr "x") { createPath := some true }
        = [("items", superjsonStringify (.vList [.vStr "x"]))] ∧
      Storadapt.set memAdapter [] "config.theme" (.vStr "dark") { createPath := some true }
        = [("config", superjsonStringify (.vMap [("theme", .vStr "dark")]))] := by
  refine ⟨?_, by rfl, by rfl⟩
  intro σ A s key di info hraw hparse
  unfold Storadapt.parseDeepPath at hparse
  simp only [hraw, liftA, exbind_ok, pure, Except.pure, Except.ok.injEq,
    Option.some.injEq] at hparse
  subst hparse
  rfl

/-- Claim C6 witness: the synthesized root at a concrete absent key. -/
theorem C6_root_synthesis_witness :
    ∃ info : DeepPathInfo,
      Storadapt.parseDeepPath memAdapter [] "items.0" 5 .set = .ok (some info) ∧
        info.rootValue
          = if isArrayIndex (seg0 (parsePath (String.mk ("items.0".data.drop 6))))
            then .vList [] else .vMap [] := by
  refine ⟨{ storageKey := "items", pathSegments := ["0"], rootValue := .vList [] }, by rfl, ?_⟩
  exact C6_root_synthesis.1 memAdapter [] "items.0" 5 _ (by rfl) (by rfl)

/-- Claim C7: a deep `set` persists nothing when the walk fails — if
`_parseDeepPath` aborts (shape mismatch) or `_setDeep` throws (type
mismatch, missing path without `createPath`, out-of-bounds index), `set`
returns with the backend state exactly as it was. -/
theorem C7_no_partial_write {σ : Type} (A : StorageAdapter σ) (s : σ) (key : String)
    (value : Value) (opts : SetOptions) (di : Nat) (hdi : dotIdx? key = some di) :
    (Storadapt.parseDeepPath A s key di .set = .ok none →
        Storadapt.set A s key value opts = s) ∧
      (∀ (info : DeepPathInfo) (e : TravErr),
        Storadapt.parseDeepPath A s key di .set = .ok (some info) →
        (Storadapt.setDeep info.rootValue info.pathSegments value
          { createPath := opts.createPath }).2 = .error e →
        Storadapt.set A s key value opts = s) := by
  constructor
  · intro hparse
    unfold Storadapt.set Storadapt.setBody
    rw [hdi]
    simp only [hparse, exbind_ok]
    rfl
  · intro info e hparse herr
    unfold Storadapt.set Storadapt.setBody
    rw [hdi]
    simp only [hparse, exbind_ok, herr]

/-- Claim C7 witness: a concrete aborted deep set — on `items = ["a"]`,
writing `items.3` without `createPath` throws out-of-bounds inside
`_setDeep` and the store is unchanged. -/
theorem C7_no_partial_write_witness :
    (Storadapt.setDeep (Value.vList [Value.vStr "a"]) ["3"] (.vStr "x")
        { createPath := none }).2 = .error .indexOutOfBounds ∧
      Storadapt.set memAdapter [("items", superjsonStringify (.vList [.vStr "a"]))]
          "items.3" (.vStr "x") {}
        = [("items", superjsonStringify (.vList [.vStr "a"]))] :=
  ⟨by rfl,
   (C7_no_partial_write memAdapter [("items", superjsonStringify (.vList [.vStr "a"]))]
      "items.3" (.vStr "x") {} 5 (by rfl)).2
     { storageKey := "items", pathSegments := ["3"], rootValue := .vList [.vStr "a"] }
     .indexOutOfBounds (by rfl) (by rfl)⟩

/-- Claim C8: removing a list slot clears it to the empty marker without
shrinking the list — after `remove("items.1")` the stored list still has
three slots, reading `items.1` yields no value (`null` at the facade),
and the neighbours are untouched; removing a map key unsets the key. -/
theorem C8_remove_list_hole :
    Storadapt.remove memAdapter
        [("items", superjsonStringify (.vList [.vStr "a", .vStr "b", .vStr "c"]))]
        "items.1"
      = [("items", superjsonStringify (.vList [.vStr "a", .vUndefined, .vStr "c"]))] ∧
      ([Value.vStr "a", Value.vUndefined, Value.vStr "c"] : List Value).length = 3 ∧
      Storadapt.get memAdapter
          [("items", superjsonStringify (.vList [.vStr "a", .vUndefined, .vStr "c"]))]
          "items.1" {} = .vNull ∧
      Storadapt.get memAdapter
          [("items", superjsonStringify (.vList [.vStr "a", .vUndefined, .vStr "c"]))]
          "items.0" {} = .vStr "a" ∧
      Storadapt.get memAdapter
          [("items", superjsonStringify (.vList [.vStr "a", .vUndefined, .vStr "c"]))]
          "items.2" {} = .vStr "c" ∧
      Storadapt.remove memAdapter
          [("user", superjsonStringify (.vMap [("name", .vStr "A"), ("age", .vNum 30)]))]
          "user.name"
        = [("user", superjsonStringify (.vMap [("age", .vNum 30)]))] := by
  refine ⟨by rfl, by rfl, by rfl, by rfl, by rfl, by rfl⟩

/-- A backend whose `getItem` always throws makes `get` fall back to its
default on every key (shallow or deep). -/
theorem get_backend_failure {σ : Type} (A : StorageAdapter σ) (s : σ) (key : String)
    (opts : GetOptions) (e : String) (hget : ∀ k, A.getItem s k = .error e) :
    Storadapt.get A s key opts = opts.defaultValue.getD .vNull := by
  unfold Storadapt.get Storadapt.getBody
  cases hdi : dotIdx? key with
  | none =>
    unfold Storadapt.getSimple
    simp [hget key, liftA, exbind_error]
  | some di =>
    unfold Storadapt.parseDeepPath
    simp [hget, liftA, exbind_error]

/-- Claim C2: the facade contains every backend failure.  With a backend
whose `getItem` always throws, `get` returns `defaultValue ?? null` and
`has` returns `false`; a throwing `length` yields `0`, a throwing `key`
yields `null`, a throwing `clear` leaves the state unchanged; and any
failure inside the bodies of `set` and `remove` (backend or traversal)
leaves the state unchanged.  No operation propagates an exception: each
facade function is total and returns its declared type. -/
theorem C2_facade_error_containment {σ : Type} (A : StorageAdapter σ) (s : σ) :
    (∀ (key : String) (opts : GetOptions) (e : String),
        (∀ k, A.getItem s k = .error e) →
        Storadapt.get A s key opts = opts.defaultValue.getD .vNull) ∧
      (∀ (key : String) (e : String),
        (∀ k, A.getItem s k = .error e) →
        Storadapt.has A s key = false) ∧
      (∀ e, A.length s = .error e → Storadapt.length A s = 0) ∧
      (∀ i e, A.key s i = .error e → Storadapt.key A s i = none) ∧
      (∀ e, A.clear s = .error e → Storadapt.clear A s = s) ∧
      (∀ (key : String) (value : Value) (opts : SetOptions) (e : JsErr),
        Storadapt.setBody A s key value opts = .error e →
        Storadapt.set A s key value opts = s) ∧
      (∀ (key : String) (e : JsErr),
        Storadapt.removeBody A s key = .error e →
        Storadapt.remove A s key = s) := by
  refine ⟨fun key opts e hget => get_backend_failure A s key opts e hget,
    ?_, ?_, ?_, ?_, ?_, ?_⟩
  · intro key e hget
    unfold Storadapt.has Storadapt.hasBody
    cases hdi : dotIdx? key with
    | none => simp [hget key, liftA, exbind_error]
    | some di =>
      have hg : Storadapt.get A s key {} = Value.vNull := by
        simpa using get_backend_failure A s key {} e hget
      simp only [hg]
      rfl
  · intro e h
    unfold Storadapt.length
    rw [h]
  · intro i e h
    unfold Storadapt.key
    rw [h]
  · intro e h
    unfold Storadapt.clear
    rw [h]
  · intro key value opts e h
    unfold Storadapt.set
    rw [h]
  · intro key e h
    unfold Storadapt.remove
    rw [h]

/-- A storage adapter whose every method throws. -/
def throwAdapter : StorageAdapter Unit where
  getItem _ _ := .error "boom"
  setItem _ _ _ := .error "boom"
  removeItem _ _ := .error "boom"
  clear _ := .error "boom"
  length _ := .error "boom"
  key _ _ := .error "boom"

/-- Claim C2 witness: every facade operation over the always-throwing
adapter returns its safe default. -/
theorem C2_facade_error_containment_witness :
    Storadapt.get throwAdapter () "user.name" { defaultValue := some (.vStr "d") }
        = .vStr "d" ∧
      Storadapt.has throwAdapter () "user" = false ∧
      Storadapt.length throwAdapter () = 0 ∧
      Storadapt.key throwAdapter () 0 = none ∧
      Storadapt.clear throwAdapter () = () ∧
      Storadapt.set throwAdapter () "user" (.vNum 1) {} = () ∧
      Storadapt.remove throwAdapter () "user" = () :=
  ⟨(C2_facade_error_containment throwAdapter ()).1 "user.name"
      { defaultValue := some (.vStr "d") } "boom" (fun _ => rfl),
   (C2_facade_error_containment throwAdapter ()).2.1 "user" "boom" (fun _ => rfl),
   (C2_facade_error_containment throwAdapter ()).2.2.1 "boom" rfl,
   (C2_facade_error_containment throwAdapter ()).2.2.2.1 0 "boom" rfl,
   (C2_facade_error_containment throwAdapter ()).2.2.2.2.1 "boom" rfl,
   (C2_facade_error_containment throwAdapter ()).2.2.2.2.2.1 "user" (.vNum 1) {}
     (.adapter "boom") rfl,
   (C2_facade_error_containment throwAdapter ()).2.2.2.2.2.2 "user" (.adapter "boom") rfl⟩

/-- The tree a fresh deep write builds: one container per segment, each
holding a single occupied slot, with `undefined` padding below an index
segment's position. -/
def builtVal : List String → Value → Value
  | [], v => v
  | seg :: rest, v =>
    if isArrayIndex seg then
      .vList (List.replicate (parseIntJS seg).toNat .vUndefined ++ [builtVal rest v])
    else .vMap [(seg, builtVal rest v)]

/-- Setting the last slot of a padded fresh list. -/
theorem replicate_set (a v : Value) : ∀ n : Nat,
    (List.replicate (n + 1) a).set n v = List.replicate n a ++ [v] := by
  intro n
  induction n with
  | zero => rfl
  | succ m ih =>
    rw [List.replicate_succ, List.set_cons_succ, ih, ← List.cons_append, ← List.replicate_succ]

/-- Reading the just-extended slot of a fresh list. -/
theorem listGet_replicate (n : Nat) : listGet (List.replicate (n + 1) Value.vUndefined) n = .vUndefined := by
  induction n with
  | zero => rfl
  | succ m ih =>
    rw [List.replicate_succ]
    exact ih

/-- Reading the occupied last slot of a built list. -/
theorem listGet_padded (n : Nat) (w : Value) :
    listGet (List.replicate n Value.vUndefined ++ [w]) n = w := by
  induction n with
  | zero => rfl
  | succ m ih =>
    rw [List.replicate_succ]
    exact ih

/-- A built tree with at least one segment is a container. -/
theorem isNullish_builtVal (segs : List String) (v : Value) (h : segs ≠ []) :
    isNullish (builtVal segs v) = false := by
  cases segs with
  | nil => exact absurd rfl h
  | cons seg rest =>
    unfold builtVal
    split <;> rfl

/-- The classification-driven seed for the first walked segment: the head
of the walked range, or the stopped-before segment on an empty range. -/
def firstSegOf (toGo : List String) (last : String) : String :=
  match toGo with
  | [] => last
  | s :: _ => s

/-- A fresh deep write over an empty seed container builds exactly
`builtVal`: the stop-before-last traversal creates one lookahead-typed
container per walked segment and the final step writes the value,
extending the last container as needed. -/
theorem travK_build (v : Value) (last : String) :
    ∀ (toGo : List String),
      travK true none (setDeepFin false true v last)
        (seedBy (isArrayIndex (firstSegOf toGo last))) toGo (some last)
        = (builtVal (toGo ++ [last]) v, .ok .vUndefined) := by
  intro toGo
  induction toGo with
  | nil =>
    show setDeepFin false true v last (seedBy (isArrayIndex last)) = _
    by_cases hseg : isArrayIndex last = true
    · have hneg : ¬parseIntJS last < 0 := by
        have := isArrayIndex_nonneg last hseg
        omega
      simp only [seedBy, hseg, if_true, setDeepFin, if_pos hseg, if_neg hneg]
      simp [listExtend, setOrRemoveList, replicate_set, builtVal, hseg]
    · simp only [seedBy, hseg, if_false, setDeepFin]
      simp [builtVal, hseg, mapSet]
  | cons seg rest ih =>
    show travK true none (setDeepFin false true v last)
      (seedBy (isArrayIndex seg)) (seg :: rest) (some last) = _
    have hnext : isNextArr rest (some last) = isArrayIndex (firstSegOf rest last) := by
      cases rest <;> rfl
    have ih' : travK true none (setDeepFin false true v last)
        (if isArrayIndex (firstSegOf rest last) = true then Value.vList [] else Value.vMap [])
        rest (some last) = (builtVal (rest ++ [last]) v, .ok .vUndefined) := by
      simpa [seedBy] using ih
    by_cases hseg : isArrayIndex seg = true
    · have hneg : ¬parseIntJS seg < 0 := by
        have := isArrayIndex_nonneg seg hseg
        omega
      simp only [seedBy, hseg, if_true, travK, if_pos hseg, if_neg hneg]
      simp [listExtend, listGet_replicate, isNullish_vUndefined, seedBy, isNullish_seed_ite,
        hnext, ih', replicate_set, builtVal, hseg]
    · simp only [seedBy, hseg, if_false, travK]
      simp [hseg, mapHas, mapSet, mapGet, seedBy, isNullish_seed_ite, hnext, ih', builtVal]

/-- A deep set on the freshly synthesized root builds exactly `builtVal`. -/
theorem setDeep_build (segs : List String) (hs : segs ≠ []) (v : Value) :
    Storadapt.setDeep (seedBy (isArrayIndex (seg0 segs))) segs v { createPath := some true }
      = (builtVal segs v, .ok .vUndefined) := by
  have hsplit : segs.dropLast ++ [segs.getLast hs] = segs := List.dropLast_append_getLast hs
  have hfirst : firstSegOf segs.dropLast (segs.getLast hs) = seg0 segs := by
    cases segs with
    | nil => exact absurd rfl hs
    | cons a t =>
      cases t with
      | nil => rfl
      | cons b t2 => rfl
  have hlast : lastSegOf segs = segs.getLast hs := by
    unfold lastSegOf
    rw [List.getLast?_eq_getLast segs hs]
    rfl
  unfold Storadapt.setDeep
  simp only [Option.getD_some, Option.getD_none, hlast]
  rw [show segs.getLast? = some (segs.getLast hs) from List.getLast?_eq_getLast segs hs]
  have := travK_build v (segs.getLast hs) segs.dropLast
  rw [hfirst, hsplit] at this
  exact this

/-- Reading back along the freshly built tree: the traversal returns the
written value, except that a nullish value sitting in a list slot trips
the `current[index] == null` check and reports `PathNotFound`. -/
theorem travK_read_out (v : Value) (f : TravErr → Bool) (hf : ∀ e, f e = true) :
    ∀ (segs : List String), segs ≠ [] →
      (travK false (some f) (fun cur => (cur, .ok cur)) (builtVal segs v) segs none).2
        = if isArrayIndex (lastSegOf segs) = true ∧ isNullish v = true
          then .error .pathNotFound else .ok v := by
  intro segs
  induction segs with
  | nil => intro hs; exact absurd rfl hs
  | cons seg rest ih =>
    intro hs
    cases rest with
    | nil =>
      by_cases hseg : isArrayIndex seg = true
      · have hneg : ¬parseIntJS seg < 0 := by
          have := isArrayIndex_nonneg seg hseg
          omega
        have hlen : ¬(List.replicate (parseIntJS seg).toNat Value.vUndefined ++ [v]).length
            ≤ (parseIntJS seg).toNat := by
          simp
        simp only [builtVal, if_pos hseg, travK, if_neg hneg, lastSegOf, List.getLast?_singleton,
          Option.getD_some]
        by_cases hv : isNullish v = true
        · simp [hlen, listGet_padded, hv, hseg, mkOut, hf]
        · simp [hlen, listGet_padded, hv, hseg, travK]
      · simp only [builtVal, hseg, Bool.false_eq_true, if_false, travK, lastSegOf,
          List.getLast?_singleton, Option.getD_some]
        simp [hseg, mapHas, mapGet, travK, mapSet]
    | cons b t =>
      have hrest : (b :: t : List String) ≠ [] := by simp
      have hnn := isNullish_builtVal (b :: t) v hrest
      have IH := ih hrest
      have hlast : lastSegOf (seg :: b :: t) = lastSegOf (b :: t) := by
        simp [lastSegOf, List.getLast?_cons_cons]
      rw [hlast]
      by_cases hseg : isArrayIndex seg = true
      · have hneg : ¬parseIntJS seg < 0 := by
          have := isArrayIndex_nonneg seg hseg
          omega
        have hb1 : builtVal (seg :: b :: t) v
            = Value.vList (List.replicate (parseIntJS seg).toNat Value.vUndefined
                ++ [builtVal (b :: t) v]) := by
          rw [builtVal, if_pos hseg]
        rw [hb1]
        generalize hg : (b :: t : List String) = restL at IH hnn ⊢
        have hne : restL ≠ [] := hg ▸ hrest
        have hlen : ¬(List.replicate (parseIntJS seg).toNat Value.vUndefined
            ++ [builtVal restL v]).length ≤ (parseIntJS seg).toNat := by
          simp
        simp only [travK, if_pos hseg, if_neg hneg]
        simp [hlen, listGet_padded, hnn, hseg, hne, IH]
      · have hb1 : builtVal (seg :: b :: t) v = Value.vMap [(seg, builtVal (b :: t) v)] := by
          rw [builtVal, if_neg (by simp [hseg])]
        rw [hb1]
        generalize hg : (b :: t : List String) = restL at IH hnn ⊢
        have hne : restL ≠ [] := hg ▸ hrest
        simp only [travK, hseg, Bool.false_eq_true, if_false]
        simp [hseg, mapHas, mapGet, hnn, hne, IH, mapSet]

/-- Reading back the key just written into the memory store. -/
theorem storeGet_storeSet (s : MemStore) (k v : String) :
    storeGet (storeSet s k v) k = some v := by
  induction s with
  | nil => simp [storeSet, storeGet, List.find?]
  | cons p rest ih =>
    cases p with
    | mk k' v' =>
      by_cases hk : k' = k
      · subst hk
        simp [storeSet, storeGet, List.find?]
      · simp only [storeSet, if_neg hk, storeGet, List.find?]
        simp only [show (decide (k' = k)) = false by simp [hk]]
        exact ih

/-- The superjson wire format is never the empty string. -/
theorem superjsonStringify_ne_empty (v : Value) : superjsonStringify v ≠ "" := by
  intro h
  have := congrArg String.data h
  simp [superjsonStringify, sjPre, sjSuf] at this

/-- The first dot of `k ++ "." ++ p` sits right after a dot-free `k`. -/
theorem findIdx_dot (l r : List Char) (hl : '.' ∉ l) :
    (l ++ '.' :: r).findIdx? (fun c => c = '.') = some l.length := by
  induction l with
  | nil => simp [List.findIdx?_cons]
  | cons c cs ih =>
    have hc : c ≠ '.' := fun hcc => hl (hcc ▸ List.mem_cons_self c cs)
    have hcs : '.' ∉ cs := fun hm => hl (List.mem_cons_of_mem c hm)
    simp only [List.cons_append, List.findIdx?_cons]
    simp only [show (decide (c = '.')) = false by simp [hc], Bool.false_eq_true, if_false]
    rw [List.findIdx?_succ, ih hcs]
    rfl

/-- A freshly built root always matches the first segment's
classification. -/
theorem validate_builtVal (segs : List String) (hs : segs ≠ []) (v : Value) :
    validateFirstSegment (builtVal segs v) (seg0 segs) = true := by
  cases segs with
  | nil => exact absurd rfl hs
  | cons seg rest =>
    unfold validateFirstSegment seg0 builtVal
    by_cases hseg : isArrayIndex seg = true
    · simp [hseg, isArray]
    · simp [hseg, isObject]

/-- Reading the built tree through `_getDeep` plus the facade's `catch`
recovers the value written (the `PathNotFound` thrown for a null value in
a list slot lands on `null`, which is the value itself). -/
theorem getDeep_built (segs : List String) (v : Value) (hs : segs ≠ [])
    (hv : v ≠ .vUndefined) :
    (match Storadapt.getDeep (builtVal segs v) segs none with
     | .ok w => w
     | .error _ => Value.vNull) = v := by
  unfold Storadapt.getDeep
  unfold traversePath
  simp only [Option.isSome_none, Bool.false_eq_true, if_false]
  rw [travK_read_out v _ (fun e => by simp) segs hs]
  by_cases hcase : isArrayIndex (lastSegOf segs) = true ∧ isNullish v = true
  · rw [if_pos hcase]
    cases v with
    | vNull => rfl
    | vUndefined => exact absurd rfl hv
    | vBool b => simp [isNullish] at hcase
    | vNum n => simp [isNullish] at hcase
    | vStr s => simp [isNullish] at hcase
    | vList xs => simp [isNullish] at hcase
    | vMap m => simp [isNullish] at hcase
  · rw [if_neg hcase]
    simp

/-- Claim C1 (amended): deep write-then-read round-trips when the storage
key is absent from the backend beforehand — for every dot-free storage key
`k`, path remainder `p` with at least one segment, and value `v` other
than the `undefined` marker, `set(k + "." + p, v, {createPath: true})`
followed by `get(k + "." + p)` over the in-memory adapter returns `v`. -/
theorem C1_write_read_roundtrip_amended (store : MemStore) (k p : String) (v : Value)
    (hk : '.' ∉ k.data) (hp : parsePath p ≠ []) (habs : storeGet store k = none)
    (hv : v ≠ .vUndefined) :
    Storadapt.get memAdapter
      (Storadapt.set memAdapter store (k ++ "." ++ p) v { createPath := some true })
      (k ++ "." ++ p) {} = v := by
  have hdata : (k ++ "." ++ p).data = k.data ++ '.' :: p.data := by
    rw [String.data_append, String.data_append]
    simp
  have hdot : dotIdx? (k ++ "." ++ p) = some k.data.length := by
    unfold dotIdx?
    rw [hdata]
    exact findIdx_dot k.data p.data hk
  have htake : String.mk ((k ++ "." ++ p).data.take k.data.length) = k := by
    rw [hdata, List.take_left]
  have hdrop : String.mk ((k ++ "." ++ p).data.drop (k.data.length + 1)) = p := by
    rw [hdata, show k.data ++ '.' :: p.data = (k.data ++ ['.']) ++ p.data from by simp,
      show k.data.length + 1 = (k.data ++ ['.']).length from by simp, List.drop_left]
  have hgetNone : memAdapter.getItem store (String.mk ((k ++ "." ++ p).data.take
      k.data.length)) = .ok none := by
    rw [htake]
    simp [memAdapter, habs]
  have hseed : (if isArrayIndex (seg0 (parsePath p)) = true then Value.vList []
      else Value.vMap []) = seedBy (isArrayIndex (seg0 (parsePath p))) := rfl
  have hset : Storadapt.set memAdapter store (k ++ "." ++ p) v { createPath := some true }
      = storeSet store (String.mk ((k ++ "." ++ p).data.take k.data.length))
          (superjsonStringify (builtVal (parsePath p) v)) := by
    unfold Storadapt.set Storadapt.setBody
    rw [hdot]
    unfold Storadapt.parseDeepPath
    simp only [hgetNone, liftA, exbind_ok, expure, hdrop]
    rw [hseed, setDeep_build (parsePath p) hp v]
    unfold Storadapt.saveToStorage
    simp [memAdapter, liftA]
  rw [hset, htake]
  have hget1 : memAdapter.getItem
      (storeSet store k (superjsonStringify (builtVal (parsePath p) v)))
      (String.mk ((k ++ "." ++ p).data.take k.data.length))
      = .ok (some (superjsonStringify (builtVal (parsePath p) v))) := by
    rw [htake]
    simp only [memAdapter, storeGet_storeSet]
    simp [superjsonStringify_ne_empty (builtVal (parsePath p) v)]
  unfold Storadapt.get Storadapt.getBody
  rw [hdot]
  unfold Storadapt.parseDeepPath
  simp only [hget1, liftA, exbind_ok, expure, hdrop]
  rw [isJsonString_image (builtVal (parsePath p) v)]
  simp only [if_true, superjsonParse_image, exbind_ok, expure]
  rw [validate_builtVal (parsePath p) hp v]
  simp only [if_true, exbind_ok, expure]
  have hgb := getDeep_built (parsePath p) v hp hv
  cases hgd : Storadapt.getDeep (builtVal (parsePath p) v) (parsePath p) none with
  | ok w =>
    rw [hgd] at hgb
    simpa using hgb
  | error e =>
    rw [hgd] at hgb
    simpa using hgb

/-- Claim C1 (counterexample): with a prior backend state whose storage
key holds a non-container value, the write is silently discarded (shape
mismatch warning) and the read returns `null`, not the written value. -/
theorem C1_write_read_roundtrip_counterexample :
    Storadapt.get memAdapter
        (Storadapt.set memAdapter [("k", "hello")] "k.a" (.vStr "x")
          { createPath := some true })
        "k.a" {} = .vNull ∧
      Storadapt.set memAdapter [("k", "hello")] "k.a" (.vStr "x")
          { createPath := some true } = [("k", "hello")] ∧
      (Value.vNull : Value) ≠ .vStr "x" := by
  refine ⟨by rfl, by rfl, by decide⟩

/-- Claim C1 witness: the amended round trip at a concrete absent key. -/
theorem C1_write_read_roundtrip_witness :
    Storadapt.get memAdapter
        (Storadapt.set memAdapter [] ("user" ++ "." ++ "a.b") (.vNum 1)
          { createPath := some true })
        ("user" ++ "." ++ "a.b") {} = .vNum 1 :=
  C1_write_read_roundtrip_amended [] "user" "a.b" (.vNum 1) (by decide) (by decide)
    (by rfl) (by decide)
